import Mathlib

/-!
Verification of the splitbill backend core: the expense splitter in
src/api/routers/splitbills.py (create_expense, update_expense) and the
balance netting algorithm calculate_balances in src/api/core/utils.py,
shallowly embedded in Lean.

Python Decimal values are modelled as exact rationals.  Every addition and
subtraction performed by the modelled code acts on values far below the
28-significant-digit context limit of the default Decimal context, hence is
exact; quantize with exponent 0.01 (bankers rounding, the context default
ROUND_HALF_EVEN) is modelled by quantize2 below.  All monetary columns of
the database are declared Numeric(10, 2) in src/api/models/models.py, which
is captured by the isCent predicate where a theorem needs it.

Python dictionaries are modelled as insertion-ordered association lists
with unique keys; a raised Python exception is modelled by an error value
of the enclosing function.
-/

namespace SplitBill

/-- StatusEnum from src/api/models/models.py. -/
inductive Status where
  | active
  | settled
  deriving DecidableEq, Repr

/-- ExpenseTypeEnum from src/api/models/models.py. -/
inductive ExpenseType where
  | equal
  | percentage
  | custom
  deriving DecidableEq, Repr

/-- Round a rational to an integer by bankers rounding (round half to even),
the rounding mode used by Decimal.quantize under the default context. -/
def roundHalfEven (x : ℚ) : ℤ :=
  let f : ℤ := Int.floor x
  let r : ℚ := x - f
  if r < 1/2 then f
  else if 1/2 < r then f + 1
  else if f % 2 = 0 then f else f + 1

/-- Decimal.quantize(Decimal("0.01")): round to two fraction digits. -/
def quantize2 (x : ℚ) : ℚ := (roundHalfEven (100 * x) : ℚ) / 100

/-- A rational exactly representable with two fraction digits, as every
monetary column of the database is (Numeric(10, 2)). -/
def isCent (x : ℚ) : Prop := ∃ n : ℤ, x = (n : ℚ) / 100

theorem isCent_zero : isCent 0 := ⟨0, by norm_num⟩

theorem isCent_add {x y : ℚ} (hx : isCent x) (hy : isCent y) : isCent (x + y) := by
  obtain ⟨n, rfl⟩ := hx
  obtain ⟨m, rfl⟩ := hy
  exact ⟨n + m, by push_cast; ring⟩

theorem isCent_sub {x y : ℚ} (hx : isCent x) (hy : isCent y) : isCent (x - y) := by
  obtain ⟨n, rfl⟩ := hx
  obtain ⟨m, rfl⟩ := hy
  exact ⟨n - m, by push_cast; ring⟩

theorem isCent_neg {x : ℚ} (hx : isCent x) : isCent (-x) := by
  obtain ⟨n, rfl⟩ := hx
  exact ⟨-n, by push_cast; ring⟩

theorem roundHalfEven_intCast (n : ℤ) : roundHalfEven (n : ℚ) = n := by
  unfold roundHalfEven
  simp

/-- quantize is the identity on two-fraction-digit values. -/
theorem quantize2_eq_self {x : ℚ} (hx : isCent x) : quantize2 x = x := by
  obtain ⟨n, rfl⟩ := hx
  unfold quantize2
  rw [show (100 : ℚ) * ((n : ℚ) / 100) = (n : ℚ) by ring, roundHalfEven_intCast]

theorem isCent_quantize2 (x : ℚ) : isCent (quantize2 x) := ⟨roundHalfEven (100 * x), rfl⟩

/-! ### Association lists: the model of Python dict with Nat keys -/

/-- Python dict with Nat keys: an insertion-ordered association list. -/
abbrev AList (α : Type) := List (Nat × α)

/-- Dictionary lookup: d.get(a). -/
def alookup {α : Type} : AList α → Nat → Option α
  | [], _ => none
  | (k, v) :: l, a => if k = a then some v else alookup l a

/-- Membership test: a in d. -/
def acontains {α : Type} (l : AList α) (a : Nat) : Bool := (alookup l a).isSome

/-- Assignment d[a] = v: overwrite in place if the key is present, else
append at the end (dict insertion order). -/
def aset {α : Type} : AList α → Nat → α → AList α
  | [], a, v => [(a, v)]
  | (k, w) :: l, a, v => if k = a then (a, v) :: l else (k, w) :: aset l a v

/-- Deletion d.pop(a, None) / del d[a]: drop the entry at a, if any. -/
def aerase {α : Type} : AList α → Nat → AList α
  | [], _ => []
  | (k, w) :: l, a => if k = a then l else (k, w) :: aerase l a

/-- The key list of a dictionary, in insertion order. -/
def keysOf {α : Type} (l : AList α) : List Nat := l.map Prod.fst

@[simp] theorem alookup_nil {α : Type} (a : Nat) : alookup ([] : AList α) a = none := rfl

theorem alookup_cons {α : Type} (k : Nat) (v : α) (l : AList α) (a : Nat) :
    alookup ((k, v) :: l) a = if k = a then some v else alookup l a := rfl

@[simp] theorem alookup_aset_self {α : Type} (l : AList α) (a : Nat) (v : α) :
    alookup (aset l a v) a = some v := by
  induction l with
  | nil => simp [aset, alookup]
  | cons p l ih =>
    obtain ⟨k, w⟩ := p
    by_cases h : k = a <;> simp [aset, alookup, h, ih]

@[simp] theorem alookup_aset_ne {α : Type} (l : AList α) (a b : Nat) (v : α) (h : a ≠ b) :
    alookup (aset l a v) b = alookup l b := by
  induction l with
  | nil => simp [aset, alookup, h]
  | cons p l ih =>
    obtain ⟨k, w⟩ := p
    by_cases hk : k = a
    · subst hk
      simp [aset, alookup, h]
    · by_cases hkb : k = b <;> simp [aset, alookup, hk, hkb, ih, Ne.symm h]

@[simp] theorem alookup_aerase_ne {α : Type} (l : AList α) (a b : Nat) (h : a ≠ b) :
    alookup (aerase l a) b = alookup l b := by
  induction l with
  | nil => simp [aerase]
  | cons p l ih =>
    obtain ⟨k, w⟩ := p
    by_cases hk : k = a
    · subst hk
      simp [aerase, alookup, h]
    · by_cases hkb : k = b <;> simp [aerase, alookup, hk, hkb, ih, Ne.symm h]

theorem alookup_eq_none_of_not_mem_keys {α : Type} {l : AList α} {a : Nat}
    (h : a ∉ keysOf l) : alookup l a = none := by
  induction l with
  | nil => rfl
  | cons p l ih =>
    obtain ⟨k, w⟩ := p
    simp only [keysOf, List.map_cons, List.mem_cons, not_or] at h
    rw [alookup_cons, if_neg (fun he => h.1 he.symm)]
    exact ih h.2

theorem mem_keys_of_alookup {α : Type} {l : AList α} {a : Nat} {v : α}
    (h : alookup l a = some v) : a ∈ keysOf l := by
  by_contra hmem
  rw [alookup_eq_none_of_not_mem_keys hmem] at h
  exact Option.noConfusion h

theorem alookup_aerase_self {α : Type} (l : AList α) (a : Nat)
    (hnd : (keysOf l).Nodup) : alookup (aerase l a) a = none := by
  induction l with
  | nil => rfl
  | cons p l ih =>
    obtain ⟨k, w⟩ := p
    simp only [keysOf, List.map_cons, List.nodup_cons] at hnd
    by_cases hk : k = a
    · subst hk
      simpa [aerase] using alookup_eq_none_of_not_mem_keys hnd.1
    · simp only [aerase, if_neg hk, alookup_cons, if_neg hk]
      exact ih hnd.2

theorem mem_of_alookup {α : Type} {l : AList α} {a : Nat} {v : α}
    (h : alookup l a = some v) : (a, v) ∈ l := by
  induction l with
  | nil => exact Option.noConfusion h
  | cons p l ih =>
    obtain ⟨k, w⟩ := p
    rw [alookup_cons] at h
    by_cases hk : k = a
    · rw [if_pos hk] at h
      obtain rfl := hk
      obtain rfl := Option.some.inj h
      exact List.mem_cons_self _ _
    · rw [if_neg hk] at h
      exact List.mem_cons_of_mem _ (ih h)

theorem alookup_of_mem {α : Type} {l : AList α} {a : Nat} {v : α}
    (hnd : (keysOf l).Nodup) (h : (a, v) ∈ l) : alookup l a = some v := by
  induction l with
  | nil => exact absurd h (List.not_mem_nil _)
  | cons p l ih =>
    obtain ⟨k, w⟩ := p
    simp only [keysOf, List.map_cons, List.nodup_cons] at hnd
    rcases List.mem_cons.mp h with heq | hmem
    · obtain ⟨rfl, rfl⟩ := Prod.mk.injEq .. ▸ heq
      simp [alookup_cons]
    · have hka : k ≠ a := by
        rintro rfl
        exact hnd.1 (List.mem_map_of_mem Prod.fst hmem)
      rw [alookup_cons, if_neg hka]
      exact ih hnd.2 hmem

theorem mem_aset {α : Type} {l : AList α} {a : Nat} {v : α} {p : Nat × α}
    (h : p ∈ aset l a v) : p ∈ l ∨ p = (a, v) := by
  induction l with
  | nil => simpa [aset] using h
  | cons q l ih =>
    obtain ⟨k, w⟩ := q
    by_cases hk : k = a
    · simp only [aset, if_pos hk] at h
      rcases List.mem_cons.mp h with heq | hmem
      · exact Or.inr heq
      · exact Or.inl (List.mem_cons_of_mem _ hmem)
    · simp only [aset, if_neg hk] at h
      rcases List.mem_cons.mp h with heq | hmem
      · exact Or.inl (heq ▸ List.mem_cons_self _ _)
      · rcases ih hmem with h1 | h2
        · exact Or.inl (List.mem_cons_of_mem _ h1)
        · exact Or.inr h2

theorem mem_aerase {α : Type} {l : AList α} {a : Nat} {p : Nat × α}
    (h : p ∈ aerase l a) : p ∈ l := by
  induction l with
  | nil => simpa [aerase] using h
  | cons q l ih =>
    obtain ⟨k, w⟩ := q
    by_cases hk : k = a
    · simp only [aerase, if_pos hk] at h
      exact List.mem_cons_of_mem _ h
    · simp only [aerase, if_neg hk] at h
      rcases List.mem_cons.mp h with heq | hmem
      · exact heq ▸ List.mem_cons_self _ _
      · exact List.mem_cons_of_mem _ (ih hmem)

theorem acontains_cons_ne {α : Type} {k a : Nat} (hk : k ≠ a) (v : α) (l : AList α) :
    acontains ((k, v) :: l) a = acontains l a := by
  simp [acontains, alookup_cons, hk]

theorem alookup_eq_none_of_acontains_false {α : Type} {l : AList α} {a : Nat}
    (hc : acontains l a = false) : alookup l a = none := by
  cases h : alookup l a with
  | none => rfl
  | some v =>
    rw [acontains, h] at hc
    exact Bool.noConfusion hc

theorem keysOf_aset_of_contains {α : Type} {l : AList α} {a : Nat} (v : α)
    (h : acontains l a = true) : keysOf (aset l a v) = keysOf l := by
  induction l with
  | nil => simp [acontains, alookup] at h
  | cons q l ih =>
    obtain ⟨k, w⟩ := q
    by_cases hk : k = a
    · subst hk
      simp [aset, keysOf]
    · rw [acontains_cons_ne hk] at h
      simp only [aset, if_neg hk, keysOf, List.map_cons]
      exact congrArg (List.cons k) (ih h)

theorem keysOf_aset_of_not_contains {α : Type} {l : AList α} {a : Nat} (v : α)
    (h : acontains l a = false) : keysOf (aset l a v) = keysOf l ++ [a] := by
  induction l with
  | nil => simp [aset, keysOf]
  | cons q l ih =>
    obtain ⟨k, w⟩ := q
    by_cases hk : k = a
    · subst hk
      simp [acontains, alookup_cons] at h
    · rw [acontains_cons_ne hk] at h
      simp only [aset, if_neg hk, keysOf, List.map_cons, List.cons_append]
      exact congrArg (List.cons k) (ih h)

theorem alookup_isSome_of_mem_keys {α : Type} {l : AList α} {a : Nat}
    (h : a ∈ keysOf l) : (alookup l a).isSome = true := by
  induction l with
  | nil => simp [keysOf] at h
  | cons q l ih =>
    obtain ⟨k, w⟩ := q
    rw [alookup_cons]
    by_cases hk : k = a
    · simp [hk]
    · rw [if_neg hk]
      simp only [keysOf, List.map_cons, List.mem_cons] at h
      exact ih (h.resolve_left fun he => hk he.symm)

theorem not_mem_keys_of_acontains_false {α : Type} {l : AList α} {a : Nat}
    (hc : acontains l a = false) : a ∉ keysOf l := by
  intro hmem
  rw [acontains, alookup_isSome_of_mem_keys hmem] at hc
  exact Bool.noConfusion hc

theorem nodup_keys_aset {α : Type} {l : AList α} {a : Nat} (v : α)
    (hnd : (keysOf l).Nodup) : (keysOf (aset l a v)).Nodup := by
  cases hc : acontains l a with
  | true => rw [keysOf_aset_of_contains v hc]; exact hnd
  | false =>
    rw [keysOf_aset_of_not_contains v hc]
    simp [List.nodup_append, not_mem_keys_of_acontains_false hc, hnd]

theorem sublist_keys_aerase {α : Type} (l : AList α) (a : Nat) :
    (keysOf (aerase l a)).Sublist (keysOf l) := by
  induction l with
  | nil => simp [aerase]
  | cons q l ih =>
    obtain ⟨k, w⟩ := q
    by_cases hk : k = a
    · simp only [aerase, if_pos hk, keysOf, List.map_cons]
      exact (List.sublist_cons_self _ _)
    · simp only [aerase, if_neg hk, keysOf, List.map_cons]
      exact List.Sublist.cons₂ _ ih

theorem nodup_keys_aerase {α : Type} {l : AList α} {a : Nat}
    (hnd : (keysOf l).Nodup) : (keysOf (aerase l a)).Nodup :=
  (sublist_keys_aerase l a).nodup hnd

/-! ### Two-level dictionaries: member_balances and cleaned_balances -/

/-- The type of member_balances and cleaned_balances in calculate_balances:
a dict from debtor id to a dict from creditor id to an owed amount. -/
abbrev MB := AList (AList ℚ)

/-- Lookup m[a][b], or none if either key is missing. -/
def lookup2 (m : MB) (a b : Nat) : Option ℚ :=
  (alookup m a).bind fun inner => alookup inner b

/-- Membership a in m and b in m[a]. -/
def contains2 (m : MB) (a b : Nat) : Bool := (lookup2 m a b).isSome

/-- Assignment m.setdefault(a, dict())[b] = v. -/
def set2 (m : MB) (a b : Nat) (v : ℚ) : MB :=
  aset m a (aset ((alookup m a).getD []) b v)

/-- Deletion m[a].pop(b, None) (also used for del m[a][b]): the inner entry
is removed, the outer key stays. -/
def pop2 (m : MB) (a b : Nat) : MB :=
  match alookup m a with
  | some inner => aset m a (aerase inner b)
  | none => m

/-- Well-formedness automatically enjoyed by every Python dict: outer keys
are unique and each inner dict has unique keys. -/
def NodupDeep (m : MB) : Prop :=
  (keysOf m).Nodup ∧ ∀ p ∈ m, (keysOf p.2).Nodup

/-- Every value of a two-level dict satisfies P. -/
def allVals (P : ℚ → Prop) (m : MB) : Prop :=
  ∀ p ∈ m, ∀ q ∈ p.2, P q.2

theorem lookup2_set2_self (m : MB) (a b : Nat) (v : ℚ) :
    lookup2 (set2 m a b v) a b = some v := by
  simp [lookup2, set2]

theorem lookup2_set2_ne (m : MB) {a b c d : Nat} (v : ℚ) (h : a ≠ c ∨ b ≠ d) :
    lookup2 (set2 m a b v) c d = lookup2 m c d := by
  rcases h with h | h
  · simp [lookup2, set2, alookup_aset_ne _ _ _ _ h]
  · by_cases hac : a = c
    · subst hac
      simp only [lookup2, set2, alookup_aset_self, Option.bind]
      rw [alookup_aset_ne _ _ _ _ h]
      cases hm : alookup m a with
      | none => simp [hm]
      | some inner => simp [hm]
    · simp [lookup2, set2, alookup_aset_ne _ _ _ _ hac]

theorem lookup2_pop2_self {m : MB} (a b : Nat) (hnd : NodupDeep m) :
    lookup2 (pop2 m a b) a b = none := by
  unfold pop2
  cases hm : alookup m a with
  | none => simp [lookup2, hm]
  | some inner =>
    simp only [lookup2, alookup_aset_self, Option.bind]
    exact alookup_aerase_self inner b (hnd.2 _ (mem_of_alookup hm))

theorem lookup2_pop2_ne (m : MB) {a b c d : Nat} (h : a ≠ c ∨ b ≠ d) :
    lookup2 (pop2 m a b) c d = lookup2 m c d := by
  unfold pop2
  cases hm : alookup m a with
  | none => rfl
  | some inner =>
    rcases h with h | h
    · simp [lookup2, alookup_aset_ne _ _ _ _ h]
    · by_cases hac : a = c
      · subst hac
        simp [lookup2, hm, alookup_aerase_ne _ _ _ h]
      · simp [lookup2, alookup_aset_ne _ _ _ _ hac]

theorem keysOf_pop2 (m : MB) (a b : Nat) : keysOf (pop2 m a b) = keysOf m := by
  unfold pop2
  cases hm : alookup m a with
  | none => rfl
  | some inner =>
    apply keysOf_aset_of_contains
    rw [acontains, hm]
    rfl

theorem nodupDeep_set2 {m : MB} (a b : Nat) (v : ℚ) (hnd : NodupDeep m) :
    NodupDeep (set2 m a b v) := by
  constructor
  · exact nodup_keys_aset _ hnd.1
  · intro p hp
    rcases mem_aset hp with hmem | rfl
    · exact hnd.2 p hmem
    · apply nodup_keys_aset
      cases hm : alookup m a with
      | none => simp [hm, keysOf]
      | some inner =>
        simp only [hm, Option.getD]
        exact hnd.2 _ (mem_of_alookup hm)

theorem nodupDeep_pop2 {m : MB} (a b : Nat) (hnd : NodupDeep m) :
    NodupDeep (pop2 m a b) := by
  unfold pop2
  cases hm : alookup m a with
  | none => exact hnd
  | some inner =>
    constructor
    · exact nodup_keys_aset _ hnd.1
    · intro p hp
      rcases mem_aset hp with hmem | rfl
      · exact hnd.2 p hmem
      · exact nodup_keys_aerase (hnd.2 _ (mem_of_alookup hm))

theorem allVals_set2 {P : ℚ → Prop} {m : MB} {a b : Nat} {v : ℚ}
    (hm : allVals P m) (hv : P v) : allVals P (set2 m a b v) := by
  intro p hp q hq
  rcases mem_aset hp with hmem | rfl
  · exact hm p hmem q hq
  · rcases mem_aset hq with hin | rfl
    · cases hml : alookup m a with
      | none => rw [hml] at hin; exact absurd hin (List.not_mem_nil _)
      | some inner =>
        rw [hml] at hin
        exact hm _ (mem_of_alookup hml) q hin
    · exact hv

theorem allVals_pop2 {P : ℚ → Prop} {m : MB} {a b : Nat}
    (hm : allVals P m) : allVals P (pop2 m a b) := by
  unfold pop2
  cases hml : alookup m a with
  | none => exact hm
  | some inner =>
    intro p hp q hq
    rcases mem_aset hp with hmem | rfl
    · exact hm p hmem q hq
    · exact hm _ (mem_of_alookup hml) q (mem_aerase hq)

theorem lookup2_isSome_val {m : MB} {a b : Nat} {v : ℚ}
    (h : lookup2 m a b = some v) :
    ∃ inner, alookup m a = some inner ∧ alookup inner b = some v := by
  unfold lookup2 at h
  cases hm : alookup m a with
  | none => rw [hm] at h; exact Option.noConfusion h
  | some inner =>
    rw [hm] at h
    exact ⟨inner, rfl, h⟩

theorem allVals_lookup2 {P : ℚ → Prop} {m : MB} {a b : Nat} {v : ℚ}
    (hm : allVals P m) (h : lookup2 m a b = some v) : P v := by
  obtain ⟨inner, h1, h2⟩ := lookup2_isSome_val h
  exact hm _ (mem_of_alookup h1) _ (mem_of_alookup h2)

/-! ### Data model

Rows of the tables read by calculate_balances (src/api/models/models.py),
restricted to the columns that the modelled code reads.  Monetary columns
(Numeric(10, 2)) are rationals, foreign keys are Nat ids. -/

/-- One row of expenseassignments: the owed share of one member. -/
structure Assignment where
  member_id : Nat
  share_amount : ℚ
  deriving DecidableEq, Repr

/-- One row of expenses with its assignment rows (columns title, amount,
type, dates are not read by calculate_balances and are omitted). -/
structure Expense where
  paid_by_id : Nat
  assignments : List Assignment
  deriving DecidableEq, Repr

/-- One row of moneygiven: a direct transfer between two members. -/
structure MoneyGiven where
  given_by : Nat
  given_to : Nat
  amount : ℚ
  deriving DecidableEq, Repr

/-- One row of balances. -/
structure Balance where
  id : Nat
  splitbill_id : Nat
  from_member_id : Nat
  to_member_id : Nat
  amount : ℚ
  status : Status
  deriving DecidableEq, Repr

/-- One splitbills row with its loaded relationships, as calculate_balances
selects it (members, expenses with assignments, money_given, balances).
members is the list of member row ids in relationship order. -/
structure SplitBill where
  id : Nat
  status : Status
  members : List Nat
  expenses : List Expense
  money_given : List MoneyGiven
  balances : List Balance
  deriving DecidableEq, Repr

/-! ### calculate_balances, src/api/core/utils.py lines 60-138

Phase 1 (lines 78-95) accumulates the raw pairwise obligations into
member_balances; an Option result models the Python KeyError that indexing
member_balances with a non-member debtor or receiver id would raise. -/

/-- inner.setdefault(c, Decimal("0.00")); inner[c] += v. -/
def aadd (inner : AList ℚ) (c : Nat) (v : ℚ) : AList ℚ :=
  aset inner c ((alookup inner c).getD 0 + v)

/-- member_balances[d].setdefault(c, 0); member_balances[d][c] += v, where
indexing member_balances[d] raises KeyError (modelled none) if d is not a
key. -/
def mbAdd (mb : MB) (d c : Nat) (v : ℚ) : Option MB :=
  match alookup mb d with
  | some inner => some (aset mb d (aadd inner c v))
  | none => none

/-- Line 78: member_balances is a dict with one empty inner dict per member. -/
def initBalances (members : List Nat) : MB :=
  members.foldl (fun m mid => aset m mid []) []

/-- Lines 82-87: one assignment of one expense; a debtor equal to the payer
is skipped. -/
def addAssign (payer : Nat) (mb : MB) (a : Assignment) : Option MB :=
  if a.member_id = payer then some mb
  else mbAdd mb a.member_id payer a.share_amount

/-- Lines 80-87: all assignments of one expense. -/
def addExpense (mb : MB) (e : Expense) : Option MB :=
  e.assignments.foldlM (addAssign e.paid_by_id) mb

/-- Lines 89-95: one money_given row; a transfer from a member to itself is
skipped. -/
def addTransfer (mb : MB) (mg : MoneyGiven) : Option MB :=
  if mg.given_by = mg.given_to then some mb
  else mbAdd mb mg.given_to mg.given_by mg.amount

/-- Lines 78-95: the member_balances dict after both accumulation loops. -/
def buildObligations (sb : SplitBill) : Option MB := do
  let mb ← sb.expenses.foldlM addExpense (initBalances sb.members)
  sb.money_given.foldlM addTransfer mb

/-- Lines 99-108, inner loop over list(creditors.items()): the snapshot of
one debtor row is processed against the live member_balances and
cleaned_balances. -/
def nettingInner (d : Nat) : List (Nat × ℚ) → MB → MB → MB × MB
  | [], mb, cleaned => (mb, cleaned)
  | (c, amt) :: rest, mb, cleaned =>
    if acontains mb c && contains2 mb c d then
      let net := amt - (lookup2 mb c d).getD 0
      let cleaned2 :=
        if 0 < net then set2 cleaned d c net
        else if net < 0 then set2 cleaned c d (-net)
        else cleaned
      nettingInner d rest (pop2 mb c d) cleaned2
    else
      nettingInner d rest mb (set2 cleaned d c amt)

/-- Lines 98-108, outer loop over member_balances.items(): the loop body
never adds or removes outer keys, so iterating the initial key list while
reading each inner dict live is exactly the Python iteration. -/
def nettingOuter : List Nat → MB → MB → MB × MB
  | [], mb, cleaned => (mb, cleaned)
  | d :: ks, mb, cleaned =>
    let snap := (alookup mb d).getD []
    let r := nettingInner d snap mb cleaned
    nettingOuter ks r.1 r.2

/-- Lines 97-108: cleaned_balances computed from member_balances. -/
def netObligations (mb : MB) : MB :=
  (nettingOuter (keysOf mb) mb []).2

/-- Lines 110-122: reconcile the existing balance rows against
cleaned_balances.  The Python code iterates the dict built by line 110-112,
which is keyed by the primary key b.id and hence preserves the list order
of the active rows; settled rows are untouched.  Iterating the row list and
acting only on active rows is therefore the same mutation. -/
def reconcile : List Balance → MB → List Balance × MB
  | [], cleaned => ([], cleaned)
  | b :: rest, cleaned =>
    if b.status = Status.active then
      match lookup2 cleaned b.from_member_id b.to_member_id with
      | some v =>
        let r := reconcile rest (pop2 cleaned b.from_member_id b.to_member_id)
        ({ b with amount := quantize2 v } :: r.1, r.2)
      | none =>
        let r := reconcile rest cleaned
        ({ b with status := Status.settled, amount := quantize2 b.amount } :: r.1, r.2)
    else
      let r := reconcile rest cleaned
      (b :: r.1, r.2)

/-- Lines 124-136, inner loop: new BalancesOrm rows for the remaining
entries of one debtor; entries with amount <= 0 are skipped.  Primary keys
(autoincrement, assigned by the database on commit) are modelled by the
threaded counter. -/
def mkNewInner (sid d : Nat) : List (Nat × ℚ) → Nat → List Balance × Nat
  | [], nid => ([], nid)
  | (c, v) :: rest, nid =>
    if v ≤ 0 then mkNewInner sid d rest nid
    else
      let r := mkNewInner sid d rest (nid + 1)
      (⟨nid, sid, d, c, quantize2 v, Status.active⟩ :: r.1, r.2)

/-- Lines 124-136, outer loop over cleaned_balances.items(). -/
def mkNewBalances (sid : Nat) : MB → Nat → List Balance
  | [], _ => []
  | (d, inner) :: rest, nid =>
    let r := mkNewInner sid d inner nid
    r.1 ++ mkNewBalances sid rest r.2

/-- Lines 78-138 applied to one loaded splitbill: the new balance list is
the mutated existing rows followed by the rows added to the session.
none models the KeyError of phase 1. -/
def runNetting (sb : SplitBill) : Option SplitBill :=
  (buildObligations sb).map fun mb =>
    let cleaned := netObligations mb
    let r := reconcile sb.balances cleaned
    let nid := (sb.balances.map Balance.id).foldr max 0 + 1
    { sb with balances := r.1 ++ mkNewBalances sb.id r.2 nid }

/-- Observable outcome of one call of calculate_balances.  The Python
function always returns None; keyError models an uncaught KeyError
escaping from phase 1, and done carries the session state at return.
No other exception is raised by the function: in particular the
group-not-found path (lines 73-74) is a plain return None. -/
inductive CalcResult where
  | keyError
  | done (db : List SplitBill)
  deriving DecidableEq, Repr

/-- calculate_balances(splitbill_id, session) over a database state given
as the list of splitbill rows (each with its loaded relationships).
Lines 61-72 select the row by primary key; line 73-74 return None when it
is missing; lines 75-76 return early when the splitbill is settled;
otherwise lines 78-138 run and the commit makes the mutated row visible. -/
def calculate_balances (db : List SplitBill) (sid : Nat) : CalcResult :=
  match db.find? (fun sb => sb.id == sid) with
  | none => CalcResult.done db
  | some sb =>
    if sb.status = Status.settled then CalcResult.done db
    else
      match runNetting sb with
      | none => CalcResult.keyError
      | some sb2 => CalcResult.done (db.map fun x => if x.id == sid then sb2 else x)

/-! ### Expense splitting, src/api/routers/splitbills.py

create_expense (lines 226-345) and update_expense (lines 348-480) compute
the assignment rows for an expense.  Division of Decimals happens at the
default 28-significant-digit context; it is modelled by exact rational
division, which agrees with the context division on every result that is
subsequently quantized to two fraction digits (a divergence would need the
exact quotient within 10^-26 of a half-cent boundary, impossible for
quotients of two-fraction-digit amounts by a member count).  A None
share_amount is not modelled: the claims settled here only exercise
present shares. -/

/-- Error outcome of the split computation: validation is the
HTTPException(400) raised by the handlers; divisionByZero is the
decimal DivisionByZero raised by amount / len(members) with no members,
which update_expense only catches in its generic handler (HTTP 500). -/
inductive SplitErr where
  | validation
  | divisionByZero
  deriving DecidableEq, Repr

/-- Sum of the share amounts of a list of assignment rows. -/
def sumShares (l : List Assignment) : ℚ :=
  (l.map Assignment.share_amount).sum

/-- create_expense lines 261-339: the assignment rows created for a new
expense, after the members of the splitbill have been selected.  Lines
267-270 reject an empty member list (HTTP 400) before any split type runs,
so the equal-split division of line 273 is never executed with N = 0. -/
def createSplit (amount : ℚ) (etype : ExpenseType) (members : List Nat)
    (assigns : Option (List Assignment)) : Except SplitErr (List Assignment) :=
  if members.isEmpty then Except.error SplitErr.validation
  else
    match etype with
    | ExpenseType.equal =>
      Except.ok (members.map fun m => ⟨m, amount / members.length⟩)
    | ExpenseType.percentage =>
      match assigns with
      | none => Except.error SplitErr.validation
      | some l =>
        if l.isEmpty then Except.error SplitErr.validation
        else if sumShares l ≠ 100 then Except.error SplitErr.validation
        else Except.ok (l.map fun a => ⟨a.member_id, quantize2 (amount * (a.share_amount / 100))⟩)
    | ExpenseType.custom =>
      match assigns with
      | none => Except.error SplitErr.validation
      | some l =>
        if l.isEmpty then Except.error SplitErr.validation
        else if sumShares l ≠ amount then Except.error SplitErr.validation
        else Except.ok l

/-- update_expense lines 406-466: the assignment rows recreated for an
updated expense.  The equal branch (lines 407-418) divides by len(members)
with no empty-member check, and quantizes each share to two fraction
digits; the custom branch (lines 446-466) quantizes the caller shares. -/
def updateSplit (amount : ℚ) (etype : ExpenseType) (members : List Nat)
    (assigns : Option (List Assignment)) : Except SplitErr (List Assignment) :=
  match etype with
  | ExpenseType.equal =>
    if members.length = 0 then Except.error SplitErr.divisionByZero
    else
      let share := quantize2 (amount / members.length)
      Except.ok (members.map fun m => ⟨m, share⟩)
  | ExpenseType.percentage =>
    match assigns with
    | none => Except.error SplitErr.validation
    | some l =>
      if l.isEmpty then Except.error SplitErr.validation
      else if sumShares l ≠ 100 then Except.error SplitErr.validation
      else Except.ok (l.map fun a => ⟨a.member_id, quantize2 (amount * (a.share_amount / 100))⟩)
  | ExpenseType.custom =>
    match assigns with
    | none => Except.error SplitErr.validation
    | some l =>
      if l.isEmpty then Except.error SplitErr.validation
      else if sumShares l ≠ amount then Except.error SplitErr.validation
      else Except.ok (l.map fun a => ⟨a.member_id, quantize2 a.share_amount⟩)

/-! ### Helper lemmas for the claim theorems -/

theorem alookup_aerase_absent {α : Type} {l : AList α} {b : Nat}
    (h : alookup l b = none) : alookup (aerase l b) b = none := by
  induction l with
  | nil => rfl
  | cons p l ih =>
    obtain ⟨k, w⟩ := p
    rw [alookup_cons] at h
    by_cases hk : k = b
    · rw [if_pos hk] at h
      exact Option.noConfusion h
    · rw [if_neg hk] at h
      simp only [aerase, if_neg hk, alookup_cons, if_neg hk]
      exact ih h

theorem lookup2_pop2_none {m : MB} {x y a b : Nat}
    (h : lookup2 m x y = none) : lookup2 (pop2 m a b) x y = none := by
  by_cases hax : a = x
  · subst hax
    unfold pop2
    cases hm : alookup m a with
    | none => exact h
    | some inner =>
      unfold lookup2 at h ⊢
      rw [hm] at h
      rw [alookup_aset_self]
      by_cases hby : b = y
      · subst hby
        exact alookup_aerase_absent h
      · rw [Option.bind] at h ⊢
        rw [alookup_aerase_ne _ _ _ (fun he => hby he)]
        exact h
  · rw [lookup2_pop2_ne m (Or.inl hax)]
    exact h

theorem foldlM_option_append {α β : Type} (f : β → α → Option β) (l1 l2 : List α) (b : β) :
    (l1 ++ l2).foldlM f b = (l1.foldlM f b).bind fun b2 => l2.foldlM f b2 := by
  induction l1 generalizing b with
  | nil => rfl
  | cons a l1 ih =>
    show (f b a).bind _ = ((f b a).bind _).bind _
    cases f b a with
    | none => rfl
    | some b2 => exact ih b2

theorem sumShares_map_quantize {l : List Assignment}
    (hc : ∀ a ∈ l, isCent a.share_amount) :
    sumShares (l.map fun a => ⟨a.member_id, quantize2 a.share_amount⟩) = sumShares l := by
  induction l with
  | nil => rfl
  | cons a l ih =>
    simp only [sumShares, List.map_cons, List.sum_cons] at ih ⊢
    rw [quantize2_eq_self (hc a (List.mem_cons_self _ _)),
      ih fun x hx => hc x (List.mem_cons_of_mem _ hx)]


/-! ### Claim C1 -/

/-- C1 counterexample: the claim states that for every created or updated
expense and every split type the produced shares sum to the expense amount
exactly, the final member absorbing the rounding remainder.  The update
path splits 10.00 equally among three members into three identical shares
of 3.33 (nobody absorbs the remainder), summing to 9.99, not 10.00. -/
theorem C1_counterexample :
    updateSplit 10 ExpenseType.equal [1, 2, 3] none =
      Except.ok [⟨1, 333/100⟩, ⟨2, 333/100⟩, ⟨3, 333/100⟩] ∧
    sumShares [⟨1, 333/100⟩, ⟨2, 333/100⟩, ⟨3, 333/100⟩] ≠ (10 : ℚ) := by
  constructor
  · norm_num [updateSplit, quantize2, roundHalfEven]
  · norm_num [sumShares]

/-- C1 amended: only the custom split guarantees that the produced shares
sum exactly to the expense amount (its validation enforces this); equal
and percentage shares are rounded independently with no remainder
absorption, so their sum can differ from the amount.  For the update path,
which re-quantizes the caller shares, exactness additionally uses the
two-fraction-digit precision that the Numeric(10, 2) columns guarantee. -/
theorem C1_amended (amount : ℚ) (members : List Nat) (l out1 out2 : List Assignment)
    (hcent : ∀ a ∈ l, isCent a.share_amount)
    (h1 : createSplit amount ExpenseType.custom members (some l) = Except.ok out1)
    (h2 : updateSplit amount ExpenseType.custom members (some l) = Except.ok out2) :
    sumShares out1 = amount ∧ sumShares out2 = amount := by
  by_cases hm : members.isEmpty
  · simp [createSplit, hm] at h1
  · by_cases hl : l.isEmpty
    · simp [createSplit, hm, hl] at h1
    · by_cases hs : sumShares l = amount
      · simp only [createSplit, updateSplit, if_neg hm, if_neg hl,
          if_neg (not_not_intro hs), Except.ok.injEq] at h1 h2
        obtain rfl := h1
        obtain rfl := h2
        exact ⟨hs, by rw [sumShares_map_quantize hcent]; exact hs⟩
      · simp [createSplit, hm, hl, hs] at h1

/-- C1 witness: a concrete 30.00 custom split into 10.00 and 20.00 goes
through both paths and both sums equal the amount. -/
theorem C1_witness :
    sumShares [⟨1, 10⟩, ⟨2, 20⟩] = (30 : ℚ) ∧
    sumShares [⟨1, quantize2 10⟩, ⟨2, quantize2 20⟩] = (30 : ℚ) := by
  apply C1_amended 30 [1, 2] [⟨1, 10⟩, ⟨2, 20⟩]
  · intro a ha
    rcases List.mem_cons.mp ha with rfl | ha2
    · exact ⟨1000, by norm_num⟩
    · rcases List.mem_cons.mp ha2 with rfl | h3
      · exact ⟨2000, by norm_num⟩
      · cases h3
  · norm_num [createSplit, sumShares]
  · norm_num [updateSplit, sumShares]

/-! ### Claim C3 -/

/-- C3 amended: calling calculate_balances with a group id for which no
group exists does not raise any error: the function returns None after the
scalar_one_or_none lookup and performs no mutation of any state (the claim
instead asserted a NotFound failure; the 404 responses live in the route
handlers, not in this function). -/
theorem C3_amended (db : List SplitBill) (sid : Nat)
    (h : db.find? (fun sb => sb.id == sid) = none) :
    calculate_balances db sid = CalcResult.done db := by
  unfold calculate_balances
  rw [h]

/-- C3 counterexample: with a database containing only splitbill 7,
recomputing balances for the missing id 5 completes without any error
(done, not keyError or an exception) and leaves the state untouched,
refuting the claimed NotFound failure. -/
theorem C3_counterexample :
    calculate_balances [⟨7, Status.active, [1], [], [], []⟩] 5 =
      CalcResult.done [⟨7, Status.active, [1], [], [], []⟩] := rfl

/-- C3 witness: the amended theorem applied to a concrete database with no
splitbill of id 4. -/
theorem C3_witness :
    calculate_balances [⟨3, Status.active, [1, 2], [], [], []⟩] 4 =
      CalcResult.done [⟨3, Status.active, [1, 2], [], [], []⟩] :=
  C3_amended _ 4 rfl

/-! ### Claim C4 -/

/-- C4 amended: an active balance whose pair has disappeared from the
netted obligations is marked settled and keeps its previous amount (only
quantized); the amount is not reset to 0.00. -/
theorem C4_amended (bals : List Balance) (cl : MB) (b : Balance)
    (hb : b ∈ bals) (hact : b.status = Status.active)
    (hnone : lookup2 cl b.from_member_id b.to_member_id = none) :
    { b with status := Status.settled, amount := quantize2 b.amount } ∈ (reconcile bals cl).1 := by
  induction bals generalizing cl with
  | nil => cases hb
  | cons hd rest ih =>
    rcases List.mem_cons.mp hb with rfl | hmem
    · unfold reconcile
      rw [if_pos hact, hnone]
      exact List.mem_cons_self _ _
    · unfold reconcile
      by_cases hst : hd.status = Status.active
      · rw [if_pos hst]
        cases hl : lookup2 cl hd.from_member_id hd.to_member_id with
        | some v =>
          exact List.mem_cons_of_mem _ (ih _ hmem (lookup2_pop2_none hnone))
        | none =>
          exact List.mem_cons_of_mem _ (ih _ hmem hnone)
      · rw [if_neg hst]
        exact List.mem_cons_of_mem _ (ih _ hmem hnone)

/-- C4 counterexample: the spec scenario (member 2 owed member 1 the
amount 10.00 and then transferred 10 back) produces a balance record that
is settled but whose stored amount is the old 10.00, not the claimed
0.00. -/
theorem C4_counterexample :
    (runNetting ⟨7, Status.active, [1, 2], [⟨1, [⟨2, 10⟩]⟩], [⟨2, 1, 10⟩],
        [⟨11, 7, 2, 1, 10, Status.active⟩]⟩).map SplitBill.balances =
      some [⟨11, 7, 2, 1, 10, Status.settled⟩] ∧ (10 : ℚ) ≠ 0 := by
  constructor
  · norm_num [runNetting, buildObligations, initBalances, addExpense, addAssign, addTransfer,
      mbAdd, aadd, netObligations, nettingOuter, nettingInner, keysOf, reconcile, mkNewBalances,
      mkNewInner, aset, alookup, aerase, acontains, contains2, lookup2, set2, pop2,
      quantize2, roundHalfEven, List.foldlM]
  · norm_num

/-- C4 witness: the amended theorem applied to one concrete active balance
reconciled against empty netted obligations. -/
theorem C4_witness :
    (⟨11, 7, 2, 1, quantize2 10, Status.settled⟩ : Balance) ∈
      (reconcile [⟨11, 7, 2, 1, 10, Status.active⟩] []).1 :=
  C4_amended [⟨11, 7, 2, 1, 10, Status.active⟩] [] ⟨11, 7, 2, 1, 10, Status.active⟩
    (List.mem_singleton.mpr rfl) rfl rfl

/-! ### Claim C5 -/

/-- C5: a custom split whose caller shares do not sum to the expense
amount is rejected with the validation error (HTTP 400) on both the create
and the update path; the error return produces no assignment rows, and the
session transaction is never committed on that path, so nothing is
persisted. -/
theorem C5_theorem (amount : ℚ) (members : List Nat) (l : List Assignment)
    (h : sumShares l ≠ amount) :
    createSplit amount ExpenseType.custom members (some l) = Except.error SplitErr.validation ∧
    updateSplit amount ExpenseType.custom members (some l) = Except.error SplitErr.validation := by
  constructor
  · by_cases hm : members.isEmpty
    · simp [createSplit, hm]
    · by_cases hl : l.isEmpty
      · simp [createSplit, hm, hl]
      · simp [createSplit, hm, hl, h]
  · by_cases hl : l.isEmpty
    · simp [updateSplit, hl]
    · simp [updateSplit, hl, h]

/-- C5 witness: the spec scenario, shares of 29.99 against a 30.00
expense. -/
theorem C5_witness :
    sumShares [⟨1, 2999/100⟩] ≠ (30 : ℚ) ∧
    createSplit 30 ExpenseType.custom [1, 2] (some [⟨1, 2999/100⟩]) =
      Except.error SplitErr.validation ∧
    updateSplit 30 ExpenseType.custom [1, 2] (some [⟨1, 2999/100⟩]) =
      Except.error SplitErr.validation := by
  have h : sumShares [⟨1, 2999/100⟩] ≠ (30 : ℚ) := by norm_num [sumShares]
  obtain ⟨h1, h2⟩ := C5_theorem 30 [1, 2] [⟨1, 2999/100⟩] h
  exact ⟨h, h1, h2⟩

/-! ### Claim C8 -/

/-- C8 counterexample: on the update path an equal split over an empty
member list executes the division and raises the decimal DivisionByZero
(surfaced as HTTP 500 by the generic handler), not the claimed
ValidationError. -/
theorem C8_counterexample :
    updateSplit 30 ExpenseType.equal [] none = Except.error SplitErr.divisionByZero ∧
    SplitErr.divisionByZero ≠ SplitErr.validation :=
  ⟨rfl, by decide⟩

/-- C8 amended: with no members, the create path rejects the expense with
the validation error (HTTP 400) before any split type runs, so its
division is never executed with N = 0; the update path has no such guard
and its equal-split division raises DivisionByZero. -/
theorem C8_amended (amount : ℚ) (assigns : Option (List Assignment)) :
    createSplit amount ExpenseType.equal [] assigns = Except.error SplitErr.validation ∧
    updateSplit amount ExpenseType.equal [] assigns = Except.error SplitErr.divisionByZero :=
  ⟨rfl, rfl⟩

/-! ### Claim C9 -/

/-- C9: a money_given row whose giver equals its receiver is skipped by
the accumulation loop, so appending it to the history leaves the computed
balance set unchanged. -/
theorem C9_theorem (sb : SplitBill) (mg : MoneyGiven)
    (hself : mg.given_by = mg.given_to) :
    (runNetting { sb with money_given := sb.money_given ++ [mg] }).map SplitBill.balances =
      (runNetting sb).map SplitBill.balances := by
  have hbuild : buildObligations { sb with money_given := sb.money_given ++ [mg] } =
      buildObligations sb := by
    unfold buildObligations
    simp only
    cases hexp : sb.expenses.foldlM addExpense (initBalances sb.members) with
    | none => rfl
    | some mb =>
      show (sb.money_given ++ [mg]).foldlM addTransfer mb =
        sb.money_given.foldlM addTransfer mb
      rw [foldlM_option_append]
      cases hmgs : sb.money_given.foldlM addTransfer mb with
      | none => rfl
      | some mb2 =>
        show [mg].foldlM addTransfer mb2 = some mb2
        simp [List.foldlM, addTransfer, hself]
  unfold runNetting
  rw [hbuild]
  cases buildObligations sb with
  | none => rfl
  | some mb => simp

/-- C9 witness: appending a self transfer of 5 from member 2 to itself
leaves the computed balance set of a concrete splitbill unchanged. -/
theorem C9_witness :
    (runNetting ⟨1, Status.active, [1, 2], [⟨1, [⟨2, 4⟩]⟩], [⟨2, 2, 5⟩], []⟩).map
        SplitBill.balances =
      (runNetting ⟨1, Status.active, [1, 2], [⟨1, [⟨2, 4⟩]⟩], [], []⟩).map
        SplitBill.balances :=
  C9_theorem ⟨1, Status.active, [1, 2], [⟨1, [⟨2, 4⟩]⟩], [], []⟩ ⟨2, 2, 5⟩ rfl

/-! ### Claim C10 -/

/-- C10: invoking calculate_balances on a settled splitbill returns before
reading any obligations and changes nothing: every splitbill row, with
every balance record, amount and status, is returned unchanged. -/
theorem C10_theorem (db : List SplitBill) (sid : Nat) (sb : SplitBill)
    (hfind : db.find? (fun x => x.id == sid) = some sb)
    (hst : sb.status = Status.settled) :
    calculate_balances db sid = CalcResult.done db := by
  unfold calculate_balances
  rw [hfind]
  show (if sb.status = Status.settled then CalcResult.done db else _) = CalcResult.done db
  rw [if_pos hst]

/-- C10 witness: a concrete settled splitbill with an expense and an
active balance row is returned completely unchanged. -/
theorem C10_witness :
    calculate_balances
        [⟨9, Status.settled, [1, 2], [⟨1, [⟨2, 10⟩]⟩], [],
          [⟨1, 9, 2, 1, 10, Status.active⟩]⟩] 9 =
      CalcResult.done
        [⟨9, Status.settled, [1, 2], [⟨1, [⟨2, 10⟩]⟩], [],
          [⟨1, 9, 2, 1, 10, Status.active⟩]⟩] :=
  C10_theorem _ 9 _ rfl rfl

/-! ### Claim C7 -/

/-- Strictly positive two-fraction-digit value. -/
def PosCent (v : ℚ) : Prop := 0 < v ∧ isCent v

theorem posCent_add {x y : ℚ} (hx : PosCent x) (hy : PosCent y) : PosCent (x + y) :=
  ⟨add_pos hx.1 hy.1, isCent_add hx.2 hy.2⟩

theorem allVals_initBalances (P : ℚ → Prop) (ms : List Nat) :
    allVals P (initBalances ms) := by
  unfold initBalances
  suffices h : ∀ m0 : MB, allVals P m0 → allVals P (ms.foldl (fun m mid => aset m mid []) m0) by
    exact h [] (fun p hp => absurd hp (List.not_mem_nil _))
  induction ms with
  | nil => intro m0 h; exact h
  | cons a ms ih =>
    intro m0 h
    apply ih
    intro p hp q hq
    rcases mem_aset hp with hmem | rfl
    · exact h p hmem q hq
    · exact absurd hq (List.not_mem_nil _)

theorem allVals_mbAdd {mb mb2 : MB} {d c : Nat} {v : ℚ}
    (h : mbAdd mb d c v = some mb2) (hmb : allVals PosCent mb) (hv : PosCent v) :
    allVals PosCent mb2 := by
  unfold mbAdd at h
  cases hd : alookup mb d with
  | none => rw [hd] at h; exact Option.noConfusion h
  | some inner =>
    rw [hd] at h
    obtain rfl := Option.some.inj h
    intro p hp q hq
    rcases mem_aset hp with hmem | rfl
    · exact hmb p hmem q hq
    · unfold aadd at hq
      rcases mem_aset hq with hin | rfl
      · exact hmb _ (mem_of_alookup hd) _ hin
      · cases hc : alookup inner c with
        | none => simpa using hv
        | some old =>
          have hold : PosCent old := hmb _ (mem_of_alookup hd) _ (mem_of_alookup hc)
          exact posCent_add hold hv

theorem foldlM_option_preserve {α β : Type} (f : β → α → Option β) (P : β → Prop) (Q : α → Prop)
    (hstep : ∀ b a b2, f b a = some b2 → P b → Q a → P b2) :
    ∀ (l : List α) (b b2 : β), l.foldlM f b = some b2 → P b → (∀ a ∈ l, Q a) → P b2 := by
  intro l
  induction l with
  | nil =>
    intro b b2 h hb _
    exact Option.some.inj h ▸ hb
  | cons a l ih =>
    intro b b2 h hb hq
    rw [show (a :: l).foldlM f b = (f b a).bind (fun b3 => l.foldlM f b3) from rfl] at h
    cases hf : f b a with
    | none => rw [hf] at h; exact Option.noConfusion h
    | some b3 =>
      rw [hf] at h
      exact ih b3 b2 h (hstep b a b3 hf hb (hq a (List.mem_cons_self _ _)))
        fun x hx => hq x (List.mem_cons_of_mem _ hx)

theorem allVals_addAssign {payer : Nat} {mb mb2 : MB} {a : Assignment}
    (h : addAssign payer mb a = some mb2) (hmb : allVals PosCent mb)
    (ha : PosCent a.share_amount) : allVals PosCent mb2 := by
  unfold addAssign at h
  by_cases heq : a.member_id = payer
  · rw [if_pos heq] at h
    exact Option.some.inj h ▸ hmb
  · rw [if_neg heq] at h
    exact allVals_mbAdd h hmb ha

theorem allVals_addExpense {mb mb2 : MB} {e : Expense}
    (h : addExpense mb e = some mb2) (hmb : allVals PosCent mb)
    (he : ∀ a ∈ e.assignments, PosCent a.share_amount) : allVals PosCent mb2 :=
  foldlM_option_preserve (addAssign e.paid_by_id) (allVals PosCent)
    (fun a => PosCent a.share_amount)
    (fun _ a _ hf hb hqa => allVals_addAssign hf hb hqa)
    e.assignments mb mb2 h hmb he

theorem allVals_addTransfer {mb mb2 : MB} {mg : MoneyGiven}
    (h : addTransfer mb mg = some mb2) (hmb : allVals PosCent mb)
    (hg : PosCent mg.amount) : allVals PosCent mb2 := by
  unfold addTransfer at h
  by_cases heq : mg.given_by = mg.given_to
  · rw [if_pos heq] at h
    exact Option.some.inj h ▸ hmb
  · rw [if_neg heq] at h
    exact allVals_mbAdd h hmb hg

theorem allVals_buildObligations {sb : SplitBill} {mb : MB}
    (h : buildObligations sb = some mb)
    (hx : ∀ e ∈ sb.expenses, ∀ a ∈ e.assignments, PosCent a.share_amount)
    (hm : ∀ mg ∈ sb.money_given, PosCent mg.amount) : allVals PosCent mb := by
  unfold buildObligations at h
  cases hexp : sb.expenses.foldlM addExpense (initBalances sb.members) with
  | none => rw [hexp] at h; exact Option.noConfusion h
  | some mb1 =>
    rw [hexp] at h
    have hmb1 : allVals PosCent mb1 :=
      foldlM_option_preserve addExpense (allVals PosCent)
        (fun e => ∀ a ∈ e.assignments, PosCent a.share_amount)
        (fun _ e _ hf hb hqe => allVals_addExpense hf hb hqe)
        sb.expenses _ mb1 hexp (allVals_initBalances PosCent sb.members) hx
    exact foldlM_option_preserve addTransfer (allVals PosCent)
      (fun mg => PosCent mg.amount)
      (fun _ mg _ hf hb hqg => allVals_addTransfer hf hb hqg)
      sb.money_given mb1 mb h hmb1 hm

theorem nettingInner_allVals (d : Nat) :
    ∀ (snap : List (Nat × ℚ)) (mb cleaned : MB),
      (∀ q ∈ snap, PosCent q.2) → allVals PosCent mb → allVals PosCent cleaned →
      allVals PosCent (nettingInner d snap mb cleaned).1 ∧
        allVals PosCent (nettingInner d snap mb cleaned).2 := by
  intro snap
  induction snap with
  | nil => intro mb cleaned _ hmb hcl; exact ⟨hmb, hcl⟩
  | cons q rest ih =>
    obtain ⟨c, amt⟩ := q
    intro mb cleaned hsnap hmb hcl
    have hamt : PosCent amt := hsnap (c, amt) (List.mem_cons_self _ _)
    have hrest : ∀ q2 ∈ rest, PosCent q2.2 :=
      fun q2 hq2 => hsnap q2 (List.mem_cons_of_mem _ hq2)
    have hstep : nettingInner d ((c, amt) :: rest) mb cleaned =
        if (acontains mb c && contains2 mb c d) = true then
          nettingInner d rest (pop2 mb c d)
            (if 0 < amt - (lookup2 mb c d).getD 0 then
              set2 cleaned d c (amt - (lookup2 mb c d).getD 0)
            else if amt - (lookup2 mb c d).getD 0 < 0 then
              set2 cleaned c d (-(amt - (lookup2 mb c d).getD 0))
            else cleaned)
        else nettingInner d rest mb (set2 cleaned d c amt) := rfl
    by_cases hcond : (acontains mb c && contains2 mb c d) = true
    · rw [hstep, if_pos hcond]
      have hctd : PosCent ((lookup2 mb c d).getD 0) := by
        have hsome : (lookup2 mb c d).isSome = true := (Bool.and_elim_right hcond)
        obtain ⟨v, hv⟩ := Option.isSome_iff_exists.mp hsome
        rw [hv]
        exact allVals_lookup2 hmb hv
      have hcent : isCent (amt - (lookup2 mb c d).getD 0) := isCent_sub hamt.2 hctd.2
      apply ih (pop2 mb c d) _ hrest (allVals_pop2 hmb)
      by_cases h1 : 0 < amt - (lookup2 mb c d).getD 0
      · rw [if_pos h1]
        exact allVals_set2 hcl ⟨h1, hcent⟩
      · rw [if_neg h1]
        by_cases h2 : amt - (lookup2 mb c d).getD 0 < 0
        · rw [if_pos h2]
          exact allVals_set2 hcl ⟨neg_pos.mpr h2, isCent_neg hcent⟩
        · rw [if_neg h2]
          exact hcl
    · rw [hstep, if_neg hcond]
      exact ih mb (set2 cleaned d c amt) hrest hmb (allVals_set2 hcl hamt)

theorem nettingOuter_allVals :
    ∀ (ks : List Nat) (mb cleaned : MB),
      allVals PosCent mb → allVals PosCent cleaned →
      allVals PosCent (nettingOuter ks mb cleaned).2 := by
  intro ks
  induction ks with
  | nil => intro mb cleaned _ hcl; exact hcl
  | cons d ks ih =>
    intro mb cleaned hmb hcl
    have hsnap : ∀ q ∈ (alookup mb d).getD [], PosCent q.2 := by
      cases hd : alookup mb d with
      | none => intro q hq; exact absurd hq (List.not_mem_nil _)
      | some inner =>
        intro q hq
        exact hmb _ (mem_of_alookup hd) q hq
    obtain ⟨h1, h2⟩ := nettingInner_allVals d ((alookup mb d).getD []) mb cleaned hsnap hmb hcl
    exact ih _ _ h1 h2

theorem netObligations_allVals {mb : MB} (hmb : allVals PosCent mb) :
    allVals PosCent (netObligations mb) :=
  nettingOuter_allVals (keysOf mb) mb []
    hmb (fun p hp => absurd hp (List.not_mem_nil _))

theorem reconcile_allVals (P : ℚ → Prop) :
    ∀ (bals : List Balance) (cl : MB), allVals P cl →
      allVals P (reconcile bals cl).2 := by
  intro bals
  induction bals with
  | nil => intro cl hcl; exact hcl
  | cons hd rest ih =>
    intro cl hcl
    unfold reconcile
    by_cases hst : hd.status = Status.active
    · rw [if_pos hst]
      cases hl : lookup2 cl hd.from_member_id hd.to_member_id with
      | some v => exact ih _ (allVals_pop2 hcl)
      | none => exact ih _ hcl
    · rw [if_neg hst]
      exact ih _ hcl

theorem reconcile_actives_pos :
    ∀ (bals : List Balance) (cl : MB), allVals PosCent cl →
      ∀ b2 ∈ (reconcile bals cl).1, b2.status = Status.active → 0 < b2.amount := by
  intro bals
  induction bals with
  | nil => intro cl _ b2 hb2; exact absurd hb2 (List.not_mem_nil _)
  | cons hd rest ih =>
    intro cl hcl b2 hb2 hact
    unfold reconcile at hb2
    by_cases hst : hd.status = Status.active
    · rw [if_pos hst] at hb2
      cases hl : lookup2 cl hd.from_member_id hd.to_member_id with
      | some v =>
        rw [hl] at hb2
        rcases List.mem_cons.mp hb2 with rfl | hmem
        · have hv : PosCent v := allVals_lookup2 hcl hl
          show 0 < quantize2 v
          rw [quantize2_eq_self hv.2]
          exact hv.1
        · exact ih _ (allVals_pop2 hcl) b2 hmem hact
      | none =>
        rw [hl] at hb2
        rcases List.mem_cons.mp hb2 with rfl | hmem
        · exact absurd hact (by simp)
        · exact ih _ hcl b2 hmem hact
    · rw [if_neg hst] at hb2
      rcases List.mem_cons.mp hb2 with rfl | hmem
      · exact absurd hact hst
      · exact ih _ hcl b2 hmem hact

theorem mkNewInner_pos (sid d : Nat) :
    ∀ (inner : List (Nat × ℚ)) (nid : Nat), (∀ q ∈ inner, PosCent q.2) →
      ∀ b ∈ (mkNewInner sid d inner nid).1, 0 < b.amount := by
  intro inner
  induction inner with
  | nil => intro nid _ b hb; exact absurd hb (List.not_mem_nil _)
  | cons q rest ih =>
    obtain ⟨c, v⟩ := q
    intro nid hin b hb
    have hv : PosCent v := hin (c, v) (List.mem_cons_self _ _)
    have hrest : ∀ q2 ∈ rest, PosCent q2.2 :=
      fun q2 hq2 => hin q2 (List.mem_cons_of_mem _ hq2)
    unfold mkNewInner at hb
    by_cases hle : v ≤ 0
    · rw [if_pos hle] at hb
      exact ih nid hrest b hb
    · rw [if_neg hle] at hb
      rcases List.mem_cons.mp hb with rfl | hmem
      · show 0 < quantize2 v
        rw [quantize2_eq_self hv.2]
        exact hv.1
      · exact ih (nid + 1) hrest b hmem

theorem mkNewBalances_pos (sid : Nat) :
    ∀ (cl : MB) (nid : Nat), allVals PosCent cl →
      ∀ b ∈ mkNewBalances sid cl nid, 0 < b.amount := by
  intro cl
  induction cl with
  | nil => intro nid _ b hb; exact absurd hb (List.not_mem_nil _)
  | cons p rest ih =>
    obtain ⟨d, inner⟩ := p
    intro nid hcl b hb
    unfold mkNewBalances at hb
    rcases List.mem_append.mp hb with h1 | h2
    · exact mkNewInner_pos sid d inner nid
        (fun q hq => hcl (d, inner) (List.mem_cons_self _ _) q hq) b h1
    · exact ih _ (fun p2 hp2 q hq => hcl p2 (List.mem_cons_of_mem _ hp2) q hq) b h2

/-- C7: every balance that is active after a recomputation has a strictly
positive amount, provided all share_amounts and transfer amounts of the
history are strictly positive two-fraction-digit values (the precision the
Numeric(10, 2) columns guarantee). -/
theorem C7_theorem (sb sb2 : SplitBill)
    (hx : ∀ e ∈ sb.expenses, ∀ a ∈ e.assignments,
      0 < a.share_amount ∧ isCent a.share_amount)
    (hm : ∀ mg ∈ sb.money_given, 0 < mg.amount ∧ isCent mg.amount)
    (hrun : runNetting sb = some sb2) :
    ∀ b ∈ sb2.balances, b.status = Status.active → 0 < b.amount := by
  unfold runNetting at hrun
  cases hbuild : buildObligations sb with
  | none => rw [hbuild] at hrun; exact Option.noConfusion hrun
  | some mb =>
    rw [hbuild] at hrun
    obtain rfl := Option.some.inj hrun
    intro b hb hact
    have hmb : allVals PosCent mb := allVals_buildObligations hbuild hx hm
    have hcl : allVals PosCent (netObligations mb) := netObligations_allVals hmb
    simp only at hb
    rcases List.mem_append.mp hb with h1 | h2
    · exact reconcile_actives_pos sb.balances (netObligations mb) hcl b h1 hact
    · exact mkNewBalances_pos sb.id _ _ (reconcile_allVals PosCent sb.balances _ hcl) b h2

/-- C7 witness: a 10.00 share owed by member 2 to member 1 yields one
active balance of amount 10, strictly positive, via the theorem. -/
theorem C7_witness : (0 : ℚ) < 10 := by
  have hrun : runNetting ⟨1, Status.active, [1, 2], [⟨1, [⟨2, 10⟩]⟩], [], []⟩ =
      some ⟨1, Status.active, [1, 2], [⟨1, [⟨2, 10⟩]⟩], [],
        [⟨1, 1, 2, 1, 10, Status.active⟩]⟩ := by
    norm_num [runNetting, buildObligations, initBalances, addExpense, addAssign, addTransfer,
      mbAdd, aadd, netObligations, nettingOuter, nettingInner, keysOf, reconcile, mkNewBalances,
      mkNewInner, aset, alookup, aerase, acontains, contains2, lookup2, set2, pop2,
      quantize2, roundHalfEven, List.foldlM]
  have hx : ∀ e ∈ [(⟨1, [⟨2, 10⟩]⟩ : Expense)], ∀ a ∈ e.assignments,
      0 < a.share_amount ∧ isCent a.share_amount := by
    intro e he a ha
    rcases List.mem_singleton.mp he with rfl
    rcases List.mem_singleton.mp ha with rfl
    exact ⟨by norm_num, ⟨1000, by norm_num⟩⟩
  have hm : ∀ mg ∈ ([] : List MoneyGiven), 0 < mg.amount ∧ isCent mg.amount :=
    fun mg hmg => absurd hmg (List.not_mem_nil _)
  exact C7_theorem _ _ hx hm hrun ⟨1, 1, 2, 1, 10, Status.active⟩
    (List.mem_singleton.mpr rfl) rfl

/-! ### Claim C6 -/

theorem nodupDeep_nil : NodupDeep ([] : MB) :=
  ⟨List.nodup_nil, fun p hp => absurd hp (List.not_mem_nil _)⟩

theorem nettingInner_nodupDeep (d : Nat) :
    ∀ (snap : List (Nat × ℚ)) (mb cleaned : MB), NodupDeep cleaned →
      NodupDeep (nettingInner d snap mb cleaned).2 := by
  intro snap
  induction snap with
  | nil => intro mb cleaned hcl; exact hcl
  | cons q rest ih =>
    obtain ⟨c, amt⟩ := q
    intro mb cleaned hcl
    have hstep : nettingInner d ((c, amt) :: rest) mb cleaned =
        if (acontains mb c && contains2 mb c d) = true then
          nettingInner d rest (pop2 mb c d)
            (if 0 < amt - (lookup2 mb c d).getD 0 then
              set2 cleaned d c (amt - (lookup2 mb c d).getD 0)
            else if amt - (lookup2 mb c d).getD 0 < 0 then
              set2 cleaned c d (-(amt - (lookup2 mb c d).getD 0))
            else cleaned)
        else nettingInner d rest mb (set2 cleaned d c amt) := rfl
    by_cases hcond : (acontains mb c && contains2 mb c d) = true
    · rw [hstep, if_pos hcond]
      apply ih
      by_cases h1 : 0 < amt - (lookup2 mb c d).getD 0
      · rw [if_pos h1]
        exact nodupDeep_set2 _ _ _ hcl
      · rw [if_neg h1]
        by_cases h2 : amt - (lookup2 mb c d).getD 0 < 0
        · rw [if_pos h2]
          exact nodupDeep_set2 _ _ _ hcl
        · rw [if_neg h2]
          exact hcl
    · rw [hstep, if_neg hcond]
      exact ih _ _ (nodupDeep_set2 _ _ _ hcl)

theorem nettingOuter_nodupDeep :
    ∀ (ks : List Nat) (mb cleaned : MB), NodupDeep cleaned →
      NodupDeep (nettingOuter ks mb cleaned).2 := by
  intro ks
  induction ks with
  | nil => intro mb cleaned hcl; exact hcl
  | cons d ks ih =>
    intro mb cleaned hcl
    exact ih _ _ (nettingInner_nodupDeep d _ mb cleaned hcl)

theorem netObligations_nodupDeep (mb : MB) : NodupDeep (netObligations mb) :=
  nettingOuter_nodupDeep (keysOf mb) mb [] nodupDeep_nil

theorem reconcile_nodupDeep :
    ∀ (bals : List Balance) (cl : MB), NodupDeep cl →
      NodupDeep (reconcile bals cl).2 := by
  intro bals
  induction bals with
  | nil => intro cl hcl; exact hcl
  | cons hd rest ih =>
    intro cl hcl
    unfold reconcile
    by_cases hst : hd.status = Status.active
    · rw [if_pos hst]
      cases hl : lookup2 cl hd.from_member_id hd.to_member_id with
      | some v => exact ih _ (nodupDeep_pop2 _ _ hcl)
      | none => exact ih _ hcl
    · rw [if_neg hst]
      exact ih _ hcl

theorem lookup2_pop2_some_mono {m : MB} {a b x y : Nat} {w : ℚ}
    (hnd : NodupDeep m) (h : lookup2 (pop2 m a b) x y = some w) :
    lookup2 m x y = some w := by
  by_cases hab : a = x ∧ b = y
  · obtain ⟨rfl, rfl⟩ := hab
    rw [lookup2_pop2_self a b hnd] at h
    exact Option.noConfusion h
  · rw [lookup2_pop2_ne m (by tauto)] at h
    exact h

theorem reconcile_cons_eq (b : Balance) (rest : List Balance) (cl : MB) :
    reconcile (b :: rest) cl =
      (if b.status = Status.active then
        match lookup2 cl b.from_member_id b.to_member_id with
        | some v =>
          ({ b with amount := quantize2 v } ::
              (reconcile rest (pop2 cl b.from_member_id b.to_member_id)).1,
            (reconcile rest (pop2 cl b.from_member_id b.to_member_id)).2)
        | none =>
          ({ b with status := Status.settled, amount := quantize2 b.amount } ::
              (reconcile rest cl).1,
            (reconcile rest cl).2)
      else (b :: (reconcile rest cl).1, (reconcile rest cl).2)) := rfl

theorem reconcile_cons_active_some {b : Balance} {cl : MB} {v : ℚ} (rest : List Balance)
    (hst : b.status = Status.active)
    (hl : lookup2 cl b.from_member_id b.to_member_id = some v) :
    reconcile (b :: rest) cl =
      ({ b with amount := quantize2 v } ::
          (reconcile rest (pop2 cl b.from_member_id b.to_member_id)).1,
        (reconcile rest (pop2 cl b.from_member_id b.to_member_id)).2) := by
  rw [reconcile_cons_eq, if_pos hst]
  simp only [hl]

theorem reconcile_cons_active_none {b : Balance} {cl : MB} (rest : List Balance)
    (hst : b.status = Status.active)
    (hl : lookup2 cl b.from_member_id b.to_member_id = none) :
    reconcile (b :: rest) cl =
      ({ b with status := Status.settled, amount := quantize2 b.amount } ::
          (reconcile rest cl).1,
        (reconcile rest cl).2) := by
  rw [reconcile_cons_eq, if_pos hst]
  simp only [hl]

theorem reconcile_cons_inactive {b : Balance} {cl : MB} (rest : List Balance)
    (hst : ¬b.status = Status.active) :
    reconcile (b :: rest) cl = (b :: (reconcile rest cl).1, (reconcile rest cl).2) := by
  rw [reconcile_cons_eq, if_neg hst]

theorem reconcile_append :
    ∀ (xs ys : List Balance) (cl : MB),
      reconcile (xs ++ ys) cl =
        ((reconcile xs cl).1 ++ (reconcile ys (reconcile xs cl).2).1,
          (reconcile ys (reconcile xs cl).2).2) := by
  intro xs
  induction xs with
  | nil => intro ys cl; rfl
  | cons hd rest ih =>
    intro ys cl
    by_cases hst : hd.status = Status.active
    · cases hl : lookup2 cl hd.from_member_id hd.to_member_id with
      | some v =>
        rw [show hd :: rest ++ ys = hd :: (rest ++ ys) from rfl,
          reconcile_cons_active_some (rest ++ ys) hst hl,
          reconcile_cons_active_some rest hst hl, ih]
        rfl
      | none =>
        rw [show hd :: rest ++ ys = hd :: (rest ++ ys) from rfl,
          reconcile_cons_active_none (rest ++ ys) hst hl,
          reconcile_cons_active_none rest hst hl, ih]
        rfl
    · rw [show hd :: rest ++ ys = hd :: (rest ++ ys) from rfl,
        reconcile_cons_inactive (rest ++ ys) hst,
        reconcile_cons_inactive rest hst, ih]
      rfl

theorem reconcile_idem :
    ∀ (bals : List Balance) (cl : MB),
      reconcile (reconcile bals cl).1 cl = reconcile bals cl := by
  intro bals
  induction bals with
  | nil => intro cl; rfl
  | cons b rest ih =>
    intro cl
    obtain ⟨bid, bsid, bf, bt, bam, bst⟩ := b
    by_cases hst : bst = Status.active
    · subst hst
      cases hl : lookup2 cl bf bt with
      | some v =>
        rw [reconcile_cons_active_some rest rfl hl]
        simp only
        rw [reconcile_cons_active_some _ rfl hl, ih]
      | none =>
        rw [reconcile_cons_active_none rest rfl hl]
        simp only
        rw [reconcile_cons_inactive _ (by simp), ih]
    · rw [reconcile_cons_inactive rest hst]
      simp only
      rw [reconcile_cons_inactive _ hst, ih]

theorem mkNewInner_cons_eq (sid d c : Nat) (v : ℚ) (rest : List (Nat × ℚ)) (nid : Nat) :
    mkNewInner sid d ((c, v) :: rest) nid =
      (if v ≤ 0 then mkNewInner sid d rest nid
      else (⟨nid, sid, d, c, quantize2 v, Status.active⟩ :: (mkNewInner sid d rest (nid + 1)).1,
        (mkNewInner sid d rest (nid + 1)).2)) := rfl

theorem mkNewBalances_cons_eq (sid d : Nat) (inner : List (Nat × ℚ)) (rest : MB) (nid : Nat) :
    mkNewBalances sid ((d, inner) :: rest) nid =
      (mkNewInner sid d inner nid).1 ++
        mkNewBalances sid rest (mkNewInner sid d inner nid).2 := rfl

theorem reconcile_mkNewInner (sid d : Nat) :
    ∀ (inner : List (Nat × ℚ)) (cl : MB) (nid : Nat),
      NodupDeep cl → (keysOf inner).Nodup →
      (∀ c v, (c, v) ∈ inner → lookup2 cl d c = some v) →
      ∃ clx,
        reconcile (mkNewInner sid d inner nid).1 cl = ((mkNewInner sid d inner nid).1, clx) ∧
        NodupDeep clx ∧
        (∀ x y w, lookup2 clx x y = some w → lookup2 cl x y = some w) ∧
        (∀ x y, x ≠ d → lookup2 clx x y = lookup2 cl x y) ∧
        (∀ c v, (c, v) ∈ inner → 0 < v → lookup2 clx d c = none) := by
  intro inner
  induction inner with
  | nil =>
    intro cl nid hndcl _ _
    exact ⟨cl, rfl, hndcl, fun x y w h => h, fun x y _ => rfl,
      fun c v hc => absurd hc (List.not_mem_nil _)⟩
  | cons q rest ih =>
    obtain ⟨c, v⟩ := q
    intro cl nid hndcl hndk hlk
    have hk : c ∉ keysOf rest ∧ (keysOf rest).Nodup := by
      rw [show keysOf ((c, v) :: rest) = c :: keysOf rest from rfl] at hndk
      exact List.nodup_cons.mp hndk
    have hcnot : c ∉ keysOf rest := hk.1
    have hndk2 : (keysOf rest).Nodup := hk.2
    have hlkrest : ∀ c2 v2, (c2, v2) ∈ rest → lookup2 cl d c2 = some v2 :=
      fun c2 v2 h2 => hlk c2 v2 (List.mem_cons_of_mem _ h2)
    by_cases hv : v ≤ 0
    · rw [mkNewInner_cons_eq, if_pos hv]
      obtain ⟨clx, heq, hnd2, hmono, hpres, hdel⟩ := ih cl nid hndcl hndk2 hlkrest
      refine ⟨clx, heq, hnd2, hmono, hpres, fun c2 v2 h2 hpos => ?_⟩
      rcases List.mem_cons.mp h2 with heqq | hm
      · obtain ⟨rfl, rfl⟩ := Prod.mk.injEq .. ▸ heqq
        exact absurd hpos (not_lt.mpr hv)
      · exact hdel c2 v2 hm hpos
    · rw [mkNewInner_cons_eq, if_neg hv]
      have hlc : lookup2 cl d c = some v := hlk c v (List.mem_cons_self _ _)
      have hne : ∀ c2 v2, (c2, v2) ∈ rest → c2 ≠ c := by
        intro c2 v2 h2 heqc
        exact hcnot (heqc ▸ List.mem_map_of_mem Prod.fst h2)
      obtain ⟨clx, heq, hnd2, hmono, hpres, hdel⟩ :=
        ih (pop2 cl d c) (nid + 1) (nodupDeep_pop2 _ _ hndcl) hndk2
          (fun c2 v2 h2 => by
            rw [lookup2_pop2_ne cl (Or.inr (fun he => hne c2 v2 h2 he.symm))]
            exact hlkrest c2 v2 h2)
      have hpopnone : lookup2 (pop2 cl d c) d c = none := lookup2_pop2_self d c hndcl
      have hclxnone : lookup2 clx d c = none := by
        cases hx : lookup2 clx d c with
        | none => rfl
        | some w =>
          rw [hmono d c w hx] at hpopnone
          exact Option.noConfusion hpopnone
      refine ⟨clx, ?_, hnd2, ?_, ?_, ?_⟩
      · rw [reconcile_cons_active_some _ rfl hlc]
        simp only
        rw [heq]
      · exact fun x y w h => lookup2_pop2_some_mono hndcl (hmono x y w h)
      · intro x y hx
        rw [hpres x y hx, lookup2_pop2_ne cl (Or.inl (fun he => hx he.symm))]
      · intro c2 v2 h2 hpos
        rcases List.mem_cons.mp h2 with heqq | hm
        · obtain ⟨rfl, rfl⟩ := Prod.mk.injEq .. ▸ heqq
          exact hclxnone
        · exact hdel c2 v2 hm hpos

theorem reconcile_mkNewBalances (sid : Nat) :
    ∀ (rest : MB) (cl : MB) (nid : Nat),
      NodupDeep cl → (keysOf rest).Nodup → (∀ p ∈ rest, (keysOf p.2).Nodup) →
      (∀ dd inner, (dd, inner) ∈ rest → ∀ c v, (c, v) ∈ inner → lookup2 cl dd c = some v) →
      ∃ cl2,
        reconcile (mkNewBalances sid rest nid) cl = (mkNewBalances sid rest nid, cl2) ∧
        NodupDeep cl2 ∧
        (∀ x y w, lookup2 cl2 x y = some w → lookup2 cl x y = some w) ∧
        (∀ dd inner, (dd, inner) ∈ rest → ∀ c v, (c, v) ∈ inner → 0 < v →
          lookup2 cl2 dd c = none) := by
  intro rest
  induction rest with
  | nil =>
    intro cl nid hndcl _ _ _
    exact ⟨cl, rfl, hndcl, fun x y w h => h,
      fun dd inner hd => absurd hd (List.not_mem_nil _)⟩
  | cons p rest2 ih =>
    obtain ⟨d, inner⟩ := p
    intro cl nid hndcl hndk hndin hlk
    have hk : d ∉ keysOf rest2 ∧ (keysOf rest2).Nodup := by
      rw [show keysOf ((d, inner) :: rest2) = d :: keysOf rest2 from rfl] at hndk
      exact List.nodup_cons.mp hndk
    have hndinner : (keysOf inner).Nodup := hndin (d, inner) (List.mem_cons_self _ _)
    obtain ⟨clx, heqA, hndA, hmonoA, hpresA, hdelA⟩ :=
      reconcile_mkNewInner sid d inner cl nid hndcl hndinner
        (fun c v hc => hlk d inner (List.mem_cons_self _ _) c v hc)
    obtain ⟨cl2, heqB, hndB, hmonoB, hdelB⟩ :=
      ih clx (mkNewInner sid d inner nid).2 hndA hk.2
        (fun p hp => hndin p (List.mem_cons_of_mem _ hp))
        (fun dd inner2 hd2 c v hc => by
          have hdd : dd ≠ d := by
            intro he
            exact hk.1 (he ▸ List.mem_map_of_mem Prod.fst hd2)
          rw [hpresA dd c hdd]
          exact hlk dd inner2 (List.mem_cons_of_mem _ hd2) c v hc)
    refine ⟨cl2, ?_, hndB, fun x y w h => hmonoA x y w (hmonoB x y w h), ?_⟩
    · rw [mkNewBalances_cons_eq, reconcile_append, heqA]
      simp only
      rw [heqB]
    · intro dd inner2 hd2 c v hc hpos
      rcases List.mem_cons.mp hd2 with heqq | hm
      · obtain ⟨rfl, rfl⟩ := Prod.mk.injEq .. ▸ heqq
        have hnone : lookup2 clx dd c = none := hdelA c v hc hpos
        cases hx : lookup2 cl2 dd c with
        | none => rfl
        | some w =>
          rw [hmonoB dd c w hx] at hnone
          exact Option.noConfusion hnone
      · exact hdelB dd inner2 hm c v hc hpos

theorem mkNewInner_all_nonpos (sid d : Nat) :
    ∀ (inner : List (Nat × ℚ)) (nid : Nat), (∀ q ∈ inner, q.2 ≤ 0) →
      mkNewInner sid d inner nid = ([], nid) := by
  intro inner
  induction inner with
  | nil => intro nid _; rfl
  | cons q rest ih =>
    obtain ⟨c, v⟩ := q
    intro nid hq
    rw [mkNewInner_cons_eq, if_pos (hq (c, v) (List.mem_cons_self _ _))]
    exact ih nid fun q2 h2 => hq q2 (List.mem_cons_of_mem _ h2)

theorem mkNewBalances_all_nonpos (sid : Nat) :
    ∀ (cl : MB) (nid : Nat), (∀ p ∈ cl, ∀ q ∈ p.2, q.2 ≤ 0) →
      mkNewBalances sid cl nid = [] := by
  intro cl
  induction cl with
  | nil => intro nid _; rfl
  | cons p rest ih =>
    obtain ⟨d, inner⟩ := p
    intro nid hp
    rw [mkNewBalances_cons_eq,
      mkNewInner_all_nonpos sid d inner nid (hp (d, inner) (List.mem_cons_self _ _))]
    exact List.nil_append _ ▸ ih _ fun p2 h2 => hp p2 (List.mem_cons_of_mem _ h2)

theorem lookup2_of_mem2 {m : MB} (hnd : NodupDeep m) {d c : Nat} {inner : AList ℚ} {v : ℚ}
    (hdm : (d, inner) ∈ m) (hcm : (c, v) ∈ inner) : lookup2 m d c = some v := by
  unfold lookup2
  rw [alookup_of_mem hnd.1 hdm]
  exact alookup_of_mem (hnd.2 _ hdm) hcm

theorem mem2_of_lookup2 {m : MB} {d c : Nat} {v : ℚ}
    (h : lookup2 m d c = some v) : ∃ inner, (d, inner) ∈ m ∧ (c, v) ∈ inner := by
  obtain ⟨inner, h1, h2⟩ := lookup2_isSome_val h
  exact ⟨inner, mem_of_alookup h1, mem_of_alookup h2⟩

/-- The balance list produced by one run of lines 110-136 on a loaded
splitbill whose obligations dict is mb, with fresh ids from nid0. -/
def newBalanceList (sb : SplitBill) (mb : MB) (nid0 : Nat) : List Balance :=
  (reconcile sb.balances (netObligations mb)).1 ++
    mkNewBalances sb.id (reconcile sb.balances (netObligations mb)).2 nid0

theorem runNetting_balances (sb : SplitBill) (mb : MB)
    (hbuild : buildObligations sb = some mb) :
    runNetting sb =
      some { sb with balances :=
        newBalanceList sb mb ((sb.balances.map Balance.id).foldr max 0 + 1) } := by
  rw [show runNetting sb = (buildObligations sb).map (fun mb =>
      { sb with balances :=
        newBalanceList sb mb ((sb.balances.map Balance.id).foldr max 0 + 1) }) from rfl,
    hbuild]
  rfl

theorem runNetting_second (sb : SplitBill) (mb : MB) (nid0 : Nat)
    (hbuild : buildObligations sb = some mb) :
    runNetting { sb with balances := newBalanceList sb mb nid0 } =
      some { sb with balances := newBalanceList sb mb nid0 } := by
  have hndr2 : NodupDeep (reconcile sb.balances (netObligations mb)).2 :=
    reconcile_nodupDeep sb.balances _ (netObligations_nodupDeep mb)
  obtain ⟨cl2, heqB, hndB, hmonoB, hdelB⟩ :=
    reconcile_mkNewBalances sb.id (reconcile sb.balances (netObligations mb)).2
      (reconcile sb.balances (netObligations mb)).2 nid0 hndr2 hndr2.1
      (fun p hp => hndr2.2 p hp)
      (fun dd inner hd c v hc => lookup2_of_mem2 hndr2 hd hc)
  have hcl2nonpos : ∀ p ∈ cl2, ∀ q ∈ p.2, q.2 ≤ 0 := by
    intro p hp q hq
    obtain ⟨x, innerx⟩ := p
    obtain ⟨y, w⟩ := q
    show w ≤ 0
    have hlk2 : lookup2 cl2 x y = some w := lookup2_of_mem2 hndB hp hq
    have hlkr2 : lookup2 (reconcile sb.balances (netObligations mb)).2 x y = some w :=
      hmonoB x y w hlk2
    obtain ⟨innerO, hdO, hcO⟩ := mem2_of_lookup2 hlkr2
    by_contra hwpos
    rw [hdelB x innerO hdO y w hcO (lt_of_not_le hwpos)] at hlk2
    exact Option.noConfusion hlk2
  have hbuild2 : buildObligations { sb with balances := newBalanceList sb mb nid0 } =
      some mb := hbuild
  rw [runNetting_balances _ mb hbuild2]
  refine congrArg (fun bl => some { sb with balances := bl }) ?_
  show newBalanceList { sb with balances := newBalanceList sb mb nid0 } mb _ =
    newBalanceList sb mb nid0
  unfold newBalanceList
  simp only
  rw [reconcile_append, reconcile_idem, heqB]
  simp only
  rw [mkNewBalances_all_nonpos sb.id cl2 _ hcl2nonpos, List.append_nil]

theorem runNetting_idem {sb sb2 : SplitBill} (h : runNetting sb = some sb2) :
    runNetting sb2 = some sb2 := by
  cases hbuild : buildObligations sb with
  | none =>
    rw [show runNetting sb = (buildObligations sb).map (fun mb =>
        { sb with balances :=
          newBalanceList sb mb ((sb.balances.map Balance.id).foldr max 0 + 1) }) from rfl,
      hbuild] at h
    exact Option.noConfusion h
  | some mb =>
    rw [runNetting_balances sb mb hbuild] at h
    obtain rfl := Option.some.inj h
    exact runNetting_second sb mb _ hbuild

theorem runNetting_preserves {sb sb3 : SplitBill} (h : runNetting sb = some sb3) :
    sb3.id = sb.id ∧ sb3.status = sb.status := by
  cases hbuild : buildObligations sb with
  | none =>
    rw [show runNetting sb = (buildObligations sb).map (fun mb =>
        { sb with balances :=
          newBalanceList sb mb ((sb.balances.map Balance.id).foldr max 0 + 1) }) from rfl,
      hbuild] at h
    exact Option.noConfusion h
  | some mb =>
    rw [runNetting_balances sb mb hbuild] at h
    obtain rfl := Option.some.inj h
    exact ⟨rfl, rfl⟩

theorem find?_map_replace (p : SplitBill → Bool) {db : List SplitBill} {sb sb2 : SplitBill}
    (hfind : db.find? p = some sb) (hp2 : p sb2 = true) :
    (db.map fun x => if p x then sb2 else x).find? p = some sb2 := by
  induction db with
  | nil => exact Option.noConfusion hfind
  | cons hd rest ih =>
    by_cases hph : p hd = true
    · simp only [List.map_cons, if_pos hph]
      rw [List.find?_cons_of_pos _ hp2]
    · rw [List.find?_cons_of_neg _ hph] at hfind
      simp only [List.map_cons, if_neg hph]
      rw [List.find?_cons_of_neg _ hph]
      exact ih hfind

theorem map_replace_idem (p : SplitBill → Bool) {sb2 : SplitBill} (hp2 : p sb2 = true)
    (db : List SplitBill) :
    ((db.map fun x => if p x then sb2 else x).map fun x => if p x then sb2 else x) =
      db.map fun x => if p x then sb2 else x := by
  induction db with
  | nil => rfl
  | cons hd rest ih =>
    simp only [List.map_cons]
    by_cases hph : p hd = true
    · rw [if_pos hph, if_pos hp2, ih]
    · rw [if_neg hph, if_neg hph, ih]

/-- C6: running calculate_balances a second time on the same group with no
intervening change reproduces exactly the same database state: the same
balance rows with the same pairs, amounts and statuses. -/
theorem C6_theorem (db db2 : List SplitBill) (sid : Nat)
    (h : calculate_balances db sid = CalcResult.done db2) :
    calculate_balances db2 sid = CalcResult.done db2 := by
  have hcb : ∀ d : List SplitBill, calculate_balances d sid =
      (match d.find? (fun sb => sb.id == sid) with
      | none => CalcResult.done d
      | some sb =>
        if sb.status = Status.settled then CalcResult.done d
        else
          match runNetting sb with
          | none => CalcResult.keyError
          | some sb2 => CalcResult.done (d.map fun x => if x.id == sid then sb2 else x)) :=
    fun d => rfl
  cases hfind : db.find? (fun sb => sb.id == sid) with
  | none =>
    rw [hcb db] at h
    simp only [hfind] at h
    obtain rfl := CalcResult.done.inj h
    rw [hcb db]
    simp only [hfind]
  | some sb =>
    rw [hcb db] at h
    simp only [hfind] at h
    by_cases hst : sb.status = Status.settled
    · rw [if_pos hst] at h
      obtain rfl := CalcResult.done.inj h
      rw [hcb db]
      simp only [hfind, if_pos hst]
    · rw [if_neg hst] at h
      cases hrun : runNetting sb with
      | none =>
        simp only [hrun] at h
        exact CalcResult.noConfusion h
      | some sb3 =>
        simp only [hrun] at h
        obtain rfl := CalcResult.done.inj h
        have hps : (sb3.id == sid) = true := by
          have h1 := List.find?_some hfind
          rw [(runNetting_preserves hrun).1]
          exact h1
        have hst3 : ¬sb3.status = Status.settled := by
          rw [(runNetting_preserves hrun).2]
          exact hst
        rw [hcb]
        simp only [find?_map_replace (fun x => x.id == sid) hfind hps, if_neg hst3,
          runNetting_idem hrun, map_replace_idem (fun x => x.id == sid) hps db]

/-- C6 witness: the spec scenario (30.00 paid by member 1, split equally
among three members) recomputed a second time yields the identical
database state. -/
theorem C6_witness :
    calculate_balances
        [⟨7, Status.active, [1, 2, 3], [⟨1, [⟨1, 10⟩, ⟨2, 10⟩, ⟨3, 10⟩]⟩], [],
          [⟨1, 7, 2, 1, 10, Status.active⟩, ⟨2, 7, 3, 1, 10, Status.active⟩]⟩] 7 =
      CalcResult.done
        [⟨7, Status.active, [1, 2, 3], [⟨1, [⟨1, 10⟩, ⟨2, 10⟩, ⟨3, 10⟩]⟩], [],
          [⟨1, 7, 2, 1, 10, Status.active⟩, ⟨2, 7, 3, 1, 10, Status.active⟩]⟩] := by
  apply C6_theorem
    [⟨7, Status.active, [1, 2, 3], [⟨1, [⟨1, 10⟩, ⟨2, 10⟩, ⟨3, 10⟩]⟩], [], []⟩]
  norm_num [calculate_balances, List.find?, runNetting, buildObligations, initBalances,
    addExpense, addAssign, addTransfer, mbAdd, aadd, netObligations, nettingOuter,
    nettingInner, keysOf, reconcile, mkNewBalances, mkNewInner, aset, alookup, aerase,
    acontains, contains2, lookup2, set2, pop2, quantize2, roundHalfEven, List.foldlM]
  exact fun hcontra => Status.noConfusion hcontra

/-! ### Claim C2 -/

/-- Combined dictionary well-formedness plus absence of self-debt entries,
maintained by the accumulation phase. -/
def WfNoSelf (m : MB) : Prop :=
  NodupDeep m ∧ ∀ z, lookup2 m z z = none

theorem wfNoSelf_initBalances (ms : List Nat) : WfNoSelf (initBalances ms) := by
  unfold initBalances
  suffices h : ∀ m0 : MB, WfNoSelf m0 → (∀ p ∈ m0, p.2 = []) →
      WfNoSelf (ms.foldl (fun m mid => aset m mid []) m0) by
    exact h [] ⟨nodupDeep_nil, fun z => rfl⟩ (fun p hp => absurd hp (List.not_mem_nil _))
  induction ms with
  | nil => intro m0 h _; exact h
  | cons a ms ih =>
    intro m0 h hemp
    apply ih
    · constructor
      · constructor
        · exact nodup_keys_aset _ h.1.1
        · intro p hp
          rcases mem_aset hp with hmem | rfl
          · exact h.1.2 p hmem
          · exact List.nodup_nil
      · intro z
        unfold lookup2
        by_cases hz : a = z
        · subst hz
          rw [alookup_aset_self]
          rfl
        · rw [alookup_aset_ne _ _ _ _ hz]
          cases hzl : alookup m0 z with
          | none => rfl
          | some inner =>
            have he : inner = [] := hemp (z, inner) (mem_of_alookup hzl)
            rw [he]
            rfl
    · intro p hp
      rcases mem_aset hp with hmem | rfl
      · exact hemp p hmem
      · rfl

theorem wfNoSelf_mbAdd {mb mb2 : MB} {d c : Nat} {v : ℚ}
    (h : mbAdd mb d c v = some mb2) (hw : WfNoSelf mb) (hdc : d ≠ c) :
    WfNoSelf mb2 := by
  unfold mbAdd at h
  cases hd : alookup mb d with
  | none => rw [hd] at h; exact Option.noConfusion h
  | some inner =>
    rw [hd] at h
    obtain rfl := Option.some.inj h
    have hinnernd : (keysOf inner).Nodup := hw.1.2 _ (mem_of_alookup hd)
    constructor
    · constructor
      · exact nodup_keys_aset _ hw.1.1
      · intro p hp
        rcases mem_aset hp with hmem | rfl
        · exact hw.1.2 p hmem
        · exact nodup_keys_aset _ hinnernd
    · intro z
      unfold lookup2
      by_cases hz : d = z
      · subst hz
        rw [alookup_aset_self]
        show alookup (aadd inner c v) d = none
        unfold aadd
        rw [alookup_aset_ne _ _ _ _ (fun he => hdc he.symm)]
        have := hw.2 d
        unfold lookup2 at this
        rw [hd] at this
        exact this
      · rw [alookup_aset_ne _ _ _ _ hz]
        have := hw.2 z
        unfold lookup2 at this
        exact this

theorem wfNoSelf_buildObligations {sb : SplitBill} {mb : MB}
    (h : buildObligations sb = some mb) : WfNoSelf mb := by
  unfold buildObligations at h
  cases hexp : sb.expenses.foldlM addExpense (initBalances sb.members) with
  | none => rw [hexp] at h; exact Option.noConfusion h
  | some mb1 =>
    rw [hexp] at h
    have hmb1 : WfNoSelf mb1 :=
      foldlM_option_preserve addExpense WfNoSelf (fun _ => True)
        (fun b e b2 hf hb _ => by
          unfold addExpense at hf
          exact foldlM_option_preserve (addAssign e.paid_by_id) WfNoSelf (fun _ => True)
            (fun b3 a b4 hf2 hb3 _ => by
              unfold addAssign at hf2
              by_cases heq : a.member_id = e.paid_by_id
              · rw [if_pos heq] at hf2
                exact Option.some.inj hf2 ▸ hb3
              · rw [if_neg heq] at hf2
                exact wfNoSelf_mbAdd hf2 hb3 heq)
            e.assignments b b2 hf hb (fun _ _ => trivial))
        sb.expenses _ mb1 hexp (wfNoSelf_initBalances sb.members)
        (fun _ _ => trivial)
    exact foldlM_option_preserve addTransfer WfNoSelf (fun _ => True)
      (fun b mg b2 hf hb _ => by
        unfold addTransfer at hf
        by_cases heq : mg.given_by = mg.given_to
        · rw [if_pos heq] at hf
          exact Option.some.inj hf ▸ hb
        · rw [if_neg heq] at hf
          exact wfNoSelf_mbAdd hf hb (fun he => heq he.symm))
      sb.money_given mb1 mb h hmb1 (fun _ _ => trivial)

theorem acontains_pop2 (m : MB) (a b k : Nat) :
    acontains (pop2 m a b) k = acontains m k := by
  unfold pop2
  cases hm : alookup m a with
  | none => rfl
  | some inner =>
    by_cases hk : a = k
    · subst hk
      unfold acontains
      rw [alookup_aset_self, hm]
      rfl
    · unfold acontains
      rw [alookup_aset_ne _ _ _ _ hk]

theorem isSome_ne_none {α : Type} {o : Option α} (h : o.isSome = true) : o ≠ none := by
  cases o with
  | none => exact Bool.noConfusion h
  | some v => exact fun he => Option.noConfusion he

theorem not_isSome_eq_none {α : Type} {o : Option α} (h : ¬o.isSome = true) : o = none := by
  cases o with
  | none => rfl
  | some v => exact absurd rfl h

theorem oneDir_set2 {cleaned : MB} {a b : Nat} (v : ℚ) (hab : a ≠ b)
    (hI1 : ∀ x y, (lookup2 cleaned x y).isSome = true → lookup2 cleaned y x = none)
    (hnb : lookup2 cleaned b a = none) :
    ∀ x y, (lookup2 (set2 cleaned a b v) x y).isSome = true →
      lookup2 (set2 cleaned a b v) y x = none := by
  intro x y hxy
  by_cases hxa : x = a ∧ y = b
  · obtain ⟨rfl, rfl⟩ := hxa
    rw [lookup2_set2_ne cleaned v (Or.inl hab)]
    exact hnb
  · have hne : a ≠ x ∨ b ≠ y := by
      by_cases h1 : a = x
      · exact Or.inr fun h2 => hxa ⟨h1.symm, h2.symm⟩
      · exact Or.inl h1
    rw [lookup2_set2_ne _ v hne] at hxy
    by_cases hyx : y = a ∧ x = b
    · obtain ⟨rfl, rfl⟩ := hyx
      rw [hnb] at hxy
      exact Bool.noConfusion hxy
    · have hne2 : a ≠ y ∨ b ≠ x := by
        by_cases h1 : a = y
        · exact Or.inr fun h2 => hyx ⟨h1.symm, h2.symm⟩
        · exact Or.inl h1
      rw [lookup2_set2_ne _ v hne2]
      exact hI1 x y hxy

theorem nettingInner_inv (d : Nat) (ks2 : List Nat) (hdks : d ∉ ks2) :
    ∀ (snap : List (Nat × ℚ)) (mb cleaned : MB),
      (keysOf snap).Nodup →
      (∀ q ∈ snap, q.1 ≠ d) →
      NodupDeep mb →
      (∀ z, lookup2 mb z z = none) →
      (∀ k ∈ ks2, acontains mb k = true) →
      (∀ x y, (lookup2 cleaned x y).isSome = true → lookup2 cleaned y x = none) →
      (∀ x y, (lookup2 cleaned x y).isSome = true →
        (x ∈ ks2 → lookup2 mb x y = none) ∧ (y ∈ ks2 → lookup2 mb y x = none)) →
      (∀ q ∈ snap, lookup2 cleaned d q.1 = none ∧ lookup2 cleaned q.1 d = none) →
      NodupDeep (nettingInner d snap mb cleaned).1 ∧
      (∀ z, lookup2 (nettingInner d snap mb cleaned).1 z z = none) ∧
      (∀ k ∈ ks2, acontains (nettingInner d snap mb cleaned).1 k = true) ∧
      (∀ x y, (lookup2 (nettingInner d snap mb cleaned).2 x y).isSome = true →
        lookup2 (nettingInner d snap mb cleaned).2 y x = none) ∧
      (∀ x y, (lookup2 (nettingInner d snap mb cleaned).2 x y).isSome = true →
        (x ∈ ks2 → lookup2 (nettingInner d snap mb cleaned).1 x y = none) ∧
        (y ∈ ks2 → lookup2 (nettingInner d snap mb cleaned).1 y x = none)) := by
  intro snap
  induction snap with
  | nil =>
    intro mb cleaned _ _ hndmb hns hk hI1 hI2 _
    exact ⟨hndmb, hns, hk, hI1, hI2⟩
  | cons q rest ih =>
    obtain ⟨c, amt⟩ := q
    intro mb cleaned hsnapnd hsnapne hndmb hns hk hI1 hI2 hI3
    have hcd : c ≠ d := hsnapne (c, amt) (List.mem_cons_self _ _)
    have hdc : d ≠ c := fun he => hcd he.symm
    have hsnapnd2 : (keysOf rest).Nodup := by
      rw [show keysOf ((c, amt) :: rest) = c :: keysOf rest from rfl] at hsnapnd
      exact (List.nodup_cons.mp hsnapnd).2
    have hcnotrest : c ∉ keysOf rest := by
      rw [show keysOf ((c, amt) :: rest) = c :: keysOf rest from rfl] at hsnapnd
      exact (List.nodup_cons.mp hsnapnd).1
    have hsnapne2 : ∀ q2 ∈ rest, q2.1 ≠ d :=
      fun q2 hq2 => hsnapne q2 (List.mem_cons_of_mem _ hq2)
    have hrestne : ∀ q2 ∈ rest, q2.1 ≠ c := by
      intro q2 hq2 he
      exact hcnotrest (he ▸ List.mem_map_of_mem Prod.fst hq2)
    have hI3head := hI3 (c, amt) (List.mem_cons_self _ _)
    have hI3rest : ∀ q2 ∈ rest, lookup2 cleaned d q2.1 = none ∧ lookup2 cleaned q2.1 d = none :=
      fun q2 hq2 => hI3 q2 (List.mem_cons_of_mem _ hq2)
    have hstep : nettingInner d ((c, amt) :: rest) mb cleaned =
        if (acontains mb c && contains2 mb c d) = true then
          nettingInner d rest (pop2 mb c d)
            (if 0 < amt - (lookup2 mb c d).getD 0 then
              set2 cleaned d c (amt - (lookup2 mb c d).getD 0)
            else if amt - (lookup2 mb c d).getD 0 < 0 then
              set2 cleaned c d (-(amt - (lookup2 mb c d).getD 0))
            else cleaned)
        else nettingInner d rest mb (set2 cleaned d c amt) := rfl
    by_cases hcond : (acontains mb c && contains2 mb c d) = true
    · rw [hstep, if_pos hcond]
      have hnsmb2 : ∀ z, lookup2 (pop2 mb c d) z z = none := by
        intro z
        have hne : c ≠ z ∨ d ≠ z := by
          by_cases h1 : c = z
          · exact Or.inr (h1 ▸ hdc)
          · exact Or.inl h1
        rw [lookup2_pop2_ne mb hne]
        exact hns z
      have hk2 : ∀ k ∈ ks2, acontains (pop2 mb c d) k = true := by
        intro k hkm
        rw [acontains_pop2]
        exact hk k hkm
      have hpopself : lookup2 (pop2 mb c d) c d = none := lookup2_pop2_self c d hndmb
      have hI2pop : ∀ x y, (lookup2 cleaned x y).isSome = true →
          (x ∈ ks2 → lookup2 (pop2 mb c d) x y = none) ∧
          (y ∈ ks2 → lookup2 (pop2 mb c d) y x = none) := by
        intro x y hxy
        exact ⟨fun hx => lookup2_pop2_none ((hI2 x y hxy).1 hx),
          fun hy => lookup2_pop2_none ((hI2 x y hxy).2 hy)⟩
      by_cases h1 : 0 < amt - (lookup2 mb c d).getD 0
      · rw [if_pos h1]
        apply ih (pop2 mb c d) _ hsnapnd2 hsnapne2 (nodupDeep_pop2 _ _ hndmb) hnsmb2 hk2
        · exact oneDir_set2 _ hdc hI1 hI3head.2
        · intro x y hxy
          by_cases hxdc : x = d ∧ y = c
          · obtain ⟨rfl, rfl⟩ := hxdc
            exact ⟨fun hx => absurd hx hdks, fun _ => hpopself⟩
          · have hne : d ≠ x ∨ c ≠ y := by
              by_cases hh : d = x
              · exact Or.inr fun hh2 => hxdc ⟨hh.symm, hh2.symm⟩
              · exact Or.inl hh
            rw [lookup2_set2_ne cleaned _ hne] at hxy
            exact hI2pop x y hxy
        · intro q2 hq2
          have hcq : c ≠ q2.1 := fun he => hrestne q2 hq2 he.symm
          constructor
          · rw [lookup2_set2_ne cleaned (amt - (lookup2 mb c d).getD 0) (Or.inr hcq)]
            exact (hI3rest q2 hq2).1
          · rw [lookup2_set2_ne cleaned (amt - (lookup2 mb c d).getD 0)
              (Or.inl fun he => hsnapne2 q2 hq2 he.symm)]
            exact (hI3rest q2 hq2).2
      · rw [if_neg h1]
        by_cases h2 : amt - (lookup2 mb c d).getD 0 < 0
        · rw [if_pos h2]
          apply ih (pop2 mb c d) _ hsnapnd2 hsnapne2 (nodupDeep_pop2 _ _ hndmb) hnsmb2 hk2
          · exact oneDir_set2 _ hcd hI1 hI3head.1
          · intro x y hxy
            by_cases hxcd : x = c ∧ y = d
            · obtain ⟨rfl, rfl⟩ := hxcd
              exact ⟨fun _ => hpopself, fun hy => absurd hy hdks⟩
            · have hne : c ≠ x ∨ d ≠ y := by
                by_cases hh : c = x
                · exact Or.inr fun hh2 => hxcd ⟨hh.symm, hh2.symm⟩
                · exact Or.inl hh
              rw [lookup2_set2_ne cleaned _ hne] at hxy
              exact hI2pop x y hxy
          · intro q2 hq2
            have hcq : c ≠ q2.1 := fun he => hrestne q2 hq2 he.symm
            constructor
            · rw [lookup2_set2_ne cleaned (-(amt - (lookup2 mb c d).getD 0)) (Or.inl hcd)]
              exact (hI3rest q2 hq2).1
            · rw [lookup2_set2_ne cleaned (-(amt - (lookup2 mb c d).getD 0)) (Or.inl hcq)]
              exact (hI3rest q2 hq2).2
        · rw [if_neg h2]
          exact ih (pop2 mb c d) cleaned hsnapnd2 hsnapne2 (nodupDeep_pop2 _ _ hndmb)
            hnsmb2 hk2 hI1 hI2pop hI3rest
    · rw [hstep, if_neg hcond]
      apply ih mb _ hsnapnd2 hsnapne2 hndmb hns hk
      · exact oneDir_set2 _ hdc hI1 hI3head.2
      · intro x y hxy
        by_cases hxdc : x = d ∧ y = c
        · obtain ⟨rfl, rfl⟩ := hxdc
          refine ⟨fun hx => absurd hx hdks, fun hy => ?_⟩
          have hac : acontains mb y = true := hk y hy
          have hnc : ¬contains2 mb y x = true := by
            intro hcc
            exact hcond (by rw [hac, hcc]; rfl)
          exact not_isSome_eq_none hnc
        · have hne : d ≠ x ∨ c ≠ y := by
            by_cases hh : d = x
            · exact Or.inr fun hh2 => hxdc ⟨hh.symm, hh2.symm⟩
            · exact Or.inl hh
          rw [lookup2_set2_ne cleaned _ hne] at hxy
          exact hI2 x y hxy
      · intro q2 hq2
        have hcq : c ≠ q2.1 := fun he => hrestne q2 hq2 he.symm
        constructor
        · rw [lookup2_set2_ne cleaned amt (Or.inr hcq)]
          exact (hI3rest q2 hq2).1
        · rw [lookup2_set2_ne cleaned amt (Or.inl fun he => hsnapne2 q2 hq2 he.symm)]
          exact (hI3rest q2 hq2).2

theorem nettingOuter_inv :
    ∀ (ks : List Nat) (mb cleaned : MB),
      ks.Nodup →
      NodupDeep mb →
      (∀ z, lookup2 mb z z = none) →
      (∀ k ∈ ks, acontains mb k = true) →
      (∀ x y, (lookup2 cleaned x y).isSome = true → lookup2 cleaned y x = none) →
      (∀ x y, (lookup2 cleaned x y).isSome = true →
        (x ∈ ks → lookup2 mb x y = none) ∧ (y ∈ ks → lookup2 mb y x = none)) →
      ∀ x y, (lookup2 (nettingOuter ks mb cleaned).2 x y).isSome = true →
        lookup2 (nettingOuter ks mb cleaned).2 y x = none := by
  intro ks
  induction ks with
  | nil => intro mb cleaned _ _ _ _ hI1 _; exact hI1
  | cons d ks ih =>
    intro mb cleaned hksnd hndmb hns hk hI1 hI2
    have hdks : d ∉ ks := (List.nodup_cons.mp hksnd).1
    have hksnd2 : ks.Nodup := (List.nodup_cons.mp hksnd).2
    have hsnapmem : ∀ q ∈ (alookup mb d).getD [], lookup2 mb d q.1 = some q.2 := by
      cases hd : alookup mb d with
      | none => intro q hq; exact absurd hq (List.not_mem_nil _)
      | some inner =>
        intro q hq
        obtain ⟨c, amt⟩ := q
        exact lookup2_of_mem2 hndmb (mem_of_alookup hd) hq
    have hsnapnd : (keysOf ((alookup mb d).getD [])).Nodup := by
      cases hd : alookup mb d with
      | none => exact List.nodup_nil
      | some inner => exact hndmb.2 _ (mem_of_alookup hd)
    have hsnapne : ∀ q ∈ (alookup mb d).getD [], q.1 ≠ d := by
      intro q hq he
      have := hsnapmem q hq
      rw [he] at this
      rw [hns d] at this
      exact Option.noConfusion this
    have hI3 : ∀ q ∈ (alookup mb d).getD [],
        lookup2 cleaned d q.1 = none ∧ lookup2 cleaned q.1 d = none := by
      intro q hq
      constructor
      · cases hcl : lookup2 cleaned d q.1 with
        | none => rfl
        | some w =>
          have hs : (lookup2 cleaned d q.1).isSome = true := by rw [hcl]; rfl
          have := (hI2 d q.1 hs).1 (List.mem_cons_self _ _)
          rw [hsnapmem q hq] at this
          exact Option.noConfusion this
      · cases hcl : lookup2 cleaned q.1 d with
        | none => rfl
        | some w =>
          have hs : (lookup2 cleaned q.1 d).isSome = true := by rw [hcl]; rfl
          have := (hI2 q.1 d hs).2 (List.mem_cons_self _ _)
          rw [hsnapmem q hq] at this
          exact Option.noConfusion this
    have hk2 : ∀ k ∈ ks, acontains mb k = true :=
      fun k hkm => hk k (List.mem_cons_of_mem _ hkm)
    have hI2r : ∀ x y, (lookup2 cleaned x y).isSome = true →
        (x ∈ ks → lookup2 mb x y = none) ∧ (y ∈ ks → lookup2 mb y x = none) := by
      intro x y hxy
      exact ⟨fun hx => (hI2 x y hxy).1 (List.mem_cons_of_mem _ hx),
        fun hy => (hI2 x y hxy).2 (List.mem_cons_of_mem _ hy)⟩
    obtain ⟨hnd2, hns2, hk3, hI1b, hI2b⟩ :=
      nettingInner_inv d ks hdks ((alookup mb d).getD []) mb cleaned hsnapnd hsnapne
        hndmb hns (fun k hkm => hk k (List.mem_cons_of_mem _ hkm)) hI1 hI2r hI3
    exact ih _ _ hksnd2 hnd2 hns2 hk3 hI1b hI2b

theorem netObligations_oneDir {mb : MB} (hw : WfNoSelf mb) :
    ∀ x y, (lookup2 (netObligations mb) x y).isSome = true →
      lookup2 (netObligations mb) y x = none := by
  apply nettingOuter_inv (keysOf mb) mb [] hw.1.1 hw.1 hw.2
  · intro k hkm
    exact alookup_isSome_of_mem_keys hkm
  · intro x y hxy
    exact Bool.noConfusion hxy
  · intro x y hxy
    exact absurd hxy (by simp [lookup2])

/-- Two balance rows over the same unordered pair of members, in either
orientation. -/
def SamePair (b1 b2 : Balance) : Prop :=
  (b1.from_member_id = b2.from_member_id ∧ b1.to_member_id = b2.to_member_id) ∨
    (b1.from_member_id = b2.to_member_id ∧ b1.to_member_id = b2.from_member_id)

/-- No two distinct rows of the list are both active over the same
unordered pair. -/
def ActivePairwise (l : List Balance) : Prop :=
  List.Pairwise (fun b1 b2 => b1.status = Status.active → b2.status = Status.active →
    ¬SamePair b1 b2) l

theorem isSome_of_eq_some {α : Type} {o : Option α} {v : α} (h : o = some v) :
    o.isSome = true := by
  rw [h]
  rfl

theorem reconcile_pairwise :
    ∀ (bals : List Balance) (cl : MB),
      NodupDeep cl →
      (∀ x y, (lookup2 cl x y).isSome = true → lookup2 cl y x = none) →
      (∀ x y w, lookup2 (reconcile bals cl).2 x y = some w → lookup2 cl x y = some w) ∧
      (∀ b2 ∈ (reconcile bals cl).1, b2.status = Status.active →
        (lookup2 cl b2.from_member_id b2.to_member_id).isSome = true ∧
        lookup2 (reconcile bals cl).2 b2.from_member_id b2.to_member_id = none) ∧
      ActivePairwise (reconcile bals cl).1 := by
  intro bals
  induction bals with
  | nil =>
    intro cl _ _
    exact ⟨fun x y w h => h, fun b2 hb2 => absurd hb2 (List.not_mem_nil _), List.Pairwise.nil⟩
  | cons b rest ih =>
    intro cl hnd hod
    by_cases hst : b.status = Status.active
    · cases hl : lookup2 cl b.from_member_id b.to_member_id with
      | some v =>
        rw [reconcile_cons_active_some rest hst hl]
        have hod2 : ∀ x y, (lookup2 (pop2 cl b.from_member_id b.to_member_id) x y).isSome =
            true → lookup2 (pop2 cl b.from_member_id b.to_member_id) y x = none := by
          intro x y hxy
          obtain ⟨w, hw⟩ := Option.isSome_iff_exists.mp hxy
          have hclw := lookup2_pop2_some_mono hnd hw
          exact lookup2_pop2_none (hod x y (isSome_of_eq_some hclw))
        obtain ⟨ihmono, ihact, ihpw⟩ :=
          ih (pop2 cl b.from_member_id b.to_member_id) (nodupDeep_pop2 _ _ hnd) hod2
        have hpopself : lookup2 (pop2 cl b.from_member_id b.to_member_id)
            b.from_member_id b.to_member_id = none := lookup2_pop2_self _ _ hnd
        have hr2none : lookup2 (reconcile rest (pop2 cl b.from_member_id b.to_member_id)).2
            b.from_member_id b.to_member_id = none := by
          cases hx : lookup2 (reconcile rest (pop2 cl b.from_member_id b.to_member_id)).2
              b.from_member_id b.to_member_id with
          | none => rfl
          | some w =>
            rw [ihmono _ _ w hx] at hpopself
            exact Option.noConfusion hpopself
        refine ⟨?_, ?_, ?_⟩
        · intro x y w h
          exact lookup2_pop2_some_mono hnd (ihmono x y w h)
        · intro b2 hb2 hact
          rcases List.mem_cons.mp hb2 with rfl | hmem
          · exact ⟨isSome_of_eq_some hl, hr2none⟩
          · obtain ⟨hs1, hs2⟩ := ihact b2 hmem hact
            obtain ⟨w, hw⟩ := Option.isSome_iff_exists.mp hs1
            exact ⟨isSome_of_eq_some (lookup2_pop2_some_mono hnd hw), hs2⟩
        · rw [ActivePairwise, List.pairwise_cons]
          constructor
          · intro b2 hb2 h1 h2 hsame
            obtain ⟨hs1, hs2⟩ := ihact b2 hb2 h2
            rcases hsame with ⟨hf, ht⟩ | ⟨hf, ht⟩
            · rw [show b2.from_member_id = b.from_member_id from hf.symm,
                show b2.to_member_id = b.to_member_id from ht.symm, hpopself] at hs1
              exact Bool.noConfusion hs1
            · rw [show b2.from_member_id = b.to_member_id from ht.symm,
                show b2.to_member_id = b.from_member_id from hf.symm] at hs1
              obtain ⟨w, hw⟩ := Option.isSome_iff_exists.mp hs1
              have hclw := lookup2_pop2_some_mono hnd hw
              rw [hod b.from_member_id b.to_member_id (isSome_of_eq_some hl)] at hclw
              exact Option.noConfusion hclw
          · exact ihpw
      | none =>
        rw [reconcile_cons_active_none rest hst hl]
        obtain ⟨ihmono, ihact, ihpw⟩ := ih cl hnd hod
        refine ⟨ihmono, ?_, ?_⟩
        · intro b2 hb2 hact
          rcases List.mem_cons.mp hb2 with rfl | hmem
          · exact absurd hact (by simp)
          · exact ihact b2 hmem hact
        · rw [ActivePairwise, List.pairwise_cons]
          exact ⟨fun b2 _ h1 => absurd h1 (by simp), ihpw⟩
    · rw [reconcile_cons_inactive rest hst]
      obtain ⟨ihmono, ihact, ihpw⟩ := ih cl hnd hod
      refine ⟨ihmono, ?_, ?_⟩
      · intro b2 hb2 hact
        rcases List.mem_cons.mp hb2 with rfl | hmem
        · exact absurd hact hst
        · exact ihact b2 hmem hact
      · rw [ActivePairwise, List.pairwise_cons]
        exact ⟨fun b2 _ h1 => absurd h1 hst, ihpw⟩

theorem lookup2_cons_ne {p : Nat × AList ℚ} {rest : MB} {x y : Nat} (h : p.1 ≠ x) :
    lookup2 (p :: rest) x y = lookup2 rest x y := by
  obtain ⟨k, inner⟩ := p
  unfold lookup2
  rw [alookup_cons, if_neg h]

theorem mkNewInner_facts (sid d : Nat) :
    ∀ (inner : List (Nat × ℚ)) (nid : Nat), (keysOf inner).Nodup →
      (∀ b ∈ (mkNewInner sid d inner nid).1,
        b.status = Status.active ∧ b.from_member_id = d ∧ b.to_member_id ∈ keysOf inner) ∧
      List.Pairwise (fun b1 b2 => b1.to_member_id ≠ b2.to_member_id)
        (mkNewInner sid d inner nid).1 := by
  intro inner
  induction inner with
  | nil =>
    intro nid _
    exact ⟨fun b hb => absurd hb (List.not_mem_nil _), List.Pairwise.nil⟩
  | cons q rest ih =>
    obtain ⟨c, v⟩ := q
    intro nid hnd
    have hk : c ∉ keysOf rest ∧ (keysOf rest).Nodup := by
      rw [show keysOf ((c, v) :: rest) = c :: keysOf rest from rfl] at hnd
      exact List.nodup_cons.mp hnd
    have hkeyssub : keysOf rest ⊆ keysOf ((c, v) :: rest) := by
      intro a ha
      exact List.mem_cons_of_mem _ ha
    by_cases hv : v ≤ 0
    · rw [mkNewInner_cons_eq, if_pos hv]
      obtain ⟨hmem, hpw⟩ := ih nid hk.2
      exact ⟨fun b hb => ⟨(hmem b hb).1, (hmem b hb).2.1, hkeyssub (hmem b hb).2.2⟩, hpw⟩
    · rw [mkNewInner_cons_eq, if_neg hv]
      obtain ⟨hmem, hpw⟩ := ih (nid + 1) hk.2
      constructor
      · intro b hb
        rcases List.mem_cons.mp hb with rfl | hm
        · exact ⟨rfl, rfl, List.mem_cons_self _ _⟩
        · exact ⟨(hmem b hm).1, (hmem b hm).2.1, hkeyssub (hmem b hm).2.2⟩
      · rw [List.pairwise_cons]
        refine ⟨fun b2 hb2 he => ?_, hpw⟩
        have he2 : c = b2.to_member_id := he
        exact hk.1 (he2 ▸ (hmem b2 hb2).2.2)

theorem mkNewBalances_facts (sid : Nat) :
    ∀ (cl : MB) (nid : Nat), NodupDeep cl →
      (∀ b ∈ mkNewBalances sid cl nid, b.status = Status.active ∧
        (lookup2 cl b.from_member_id b.to_member_id).isSome = true) ∧
      List.Pairwise (fun b1 b2 => ¬(b1.from_member_id = b2.from_member_id ∧
        b1.to_member_id = b2.to_member_id)) (mkNewBalances sid cl nid) := by
  intro cl
  induction cl with
  | nil =>
    intro nid _
    exact ⟨fun b hb => absurd hb (List.not_mem_nil _), List.Pairwise.nil⟩
  | cons p rest ih =>
    obtain ⟨dd, inner⟩ := p
    intro nid hnd
    have hk : dd ∉ keysOf rest ∧ (keysOf rest).Nodup := by
      have hnd1 := hnd.1
      rw [show keysOf ((dd, inner) :: rest) = dd :: keysOf rest from rfl] at hnd1
      exact List.nodup_cons.mp hnd1
    have hndrest : NodupDeep rest :=
      ⟨hk.2, fun p2 hp2 => hnd.2 p2 (List.mem_cons_of_mem _ hp2)⟩
    have hndinner : (keysOf inner).Nodup := hnd.2 (dd, inner) (List.mem_cons_self _ _)
    have hddlk : alookup ((dd, inner) :: rest) dd = some inner := by
      rw [alookup_cons, if_pos rfl]
    obtain ⟨hmemI, hpwI⟩ := mkNewInner_facts sid dd inner nid hndinner
    obtain ⟨hmemR, hpwR⟩ := ih (mkNewInner sid dd inner nid).2 hndrest
    have hmemI2 : ∀ b ∈ (mkNewInner sid dd inner nid).1, b.status = Status.active ∧
        (lookup2 ((dd, inner) :: rest) b.from_member_id b.to_member_id).isSome = true := by
      intro b hb
      obtain ⟨h1, h2, h3⟩ := hmemI b hb
      refine ⟨h1, ?_⟩
      unfold lookup2
      rw [h2, hddlk]
      exact alookup_isSome_of_mem_keys h3
    have hmemR2 : ∀ b ∈ mkNewBalances sid rest (mkNewInner sid dd inner nid).2,
        b.status = Status.active ∧ b.from_member_id ∈ keysOf rest ∧
        (lookup2 ((dd, inner) :: rest) b.from_member_id b.to_member_id).isSome = true := by
      intro b hb
      obtain ⟨h1, h2⟩ := hmemR b hb
      have hfmem : b.from_member_id ∈ keysOf rest := by
        obtain ⟨w, hw⟩ := Option.isSome_iff_exists.mp h2
        obtain ⟨innerx, hx1, hx2⟩ := lookup2_isSome_val hw
        exact mem_keys_of_alookup hx1
      have hne : dd ≠ b.from_member_id := fun he => hk.1 (he ▸ hfmem)
      refine ⟨h1, hfmem, ?_⟩
      rw [lookup2_cons_ne hne]
      exact h2
    rw [mkNewBalances_cons_eq]
    constructor
    · intro b hb
      rcases List.mem_append.mp hb with h1 | h2
      · exact hmemI2 b h1
      · exact ⟨(hmemR2 b h2).1, (hmemR2 b h2).2.2⟩
    · rw [List.pairwise_append]
      refine ⟨?_, ?_, ?_⟩
      · exact List.Pairwise.imp (fun hto => fun hcon => hto hcon.2) hpwI
      · exact hpwR
      · intro b1 hb1 b2 hb2 hcon
        have hf1 : b1.from_member_id = dd := (hmemI b1 hb1).2.1
        have hf2 : b2.from_member_id ∈ keysOf rest := (hmemR2 b2 hb2).2.1
        rw [← hcon.1, hf1] at hf2
        exact hk.1 hf2

theorem newBalanceList_activePairwise (sb : SplitBill) (mb : MB) (nid : Nat)
    (hbuild : buildObligations sb = some mb) :
    ActivePairwise (newBalanceList sb mb nid) := by
  have hw := wfNoSelf_buildObligations hbuild
  have hndcl := netObligations_nodupDeep mb
  have hodcl := netObligations_oneDir hw
  obtain ⟨hmono, hact, hpw1⟩ :=
    reconcile_pairwise sb.balances (netObligations mb) hndcl hodcl
  have hndr2 : NodupDeep (reconcile sb.balances (netObligations mb)).2 :=
    reconcile_nodupDeep sb.balances _ hndcl
  obtain ⟨hmemN, hpwN⟩ :=
    mkNewBalances_facts sb.id (reconcile sb.balances (netObligations mb)).2 nid hndr2
  have hodr2 : ∀ x y,
      (lookup2 (reconcile sb.balances (netObligations mb)).2 x y).isSome = true →
      lookup2 (reconcile sb.balances (netObligations mb)).2 y x = none := by
    intro x y hxy
    obtain ⟨w, hw2⟩ := Option.isSome_iff_exists.mp hxy
    have hcl := hmono x y w hw2
    have hclnone := hodcl x y (isSome_of_eq_some hcl)
    cases hx : lookup2 (reconcile sb.balances (netObligations mb)).2 y x with
    | none => rfl
    | some w2 =>
      rw [hmono y x w2 hx] at hclnone
      exact Option.noConfusion hclnone
  unfold newBalanceList ActivePairwise
  rw [List.pairwise_append]
  refine ⟨hpw1, ?_, ?_⟩
  · apply List.Pairwise.imp_of_mem ?_ hpwN
    intro b1 b2 h1 h2 hords hact1 hact2 hsame
    rcases hsame with ⟨hf, ht⟩ | ⟨hf, ht⟩
    · exact hords ⟨hf, ht⟩
    · have hs1 := (hmemN b1 h1).2
      have hs2 := (hmemN b2 h2).2
      rw [← hf, ← ht] at hs2
      rw [hodr2 _ _ hs1] at hs2
      exact Bool.noConfusion hs2
  · intro b1 hb1 b2 hb2 hact1 hact2 hsame
    obtain ⟨hs1, hnone1⟩ := hact b1 hb1 hact1
    have hs2 := (hmemN b2 hb2).2
    rcases hsame with ⟨hf, ht⟩ | ⟨hf, ht⟩
    · rw [← hf, ← ht, hnone1] at hs2
      exact Bool.noConfusion hs2
    · rw [← hf, ← ht] at hs2
      obtain ⟨w, hw2⟩ := Option.isSome_iff_exists.mp hs2
      have hcl := hmono _ _ w hw2
      rw [hodcl _ _ hs1] at hcl
      exact Option.noConfusion hcl

theorem activePairwise_filter_le_one {l : List Balance} (h : ActivePairwise l) (A B : Nat) :
    (l.filter fun b => decide (b.status = Status.active ∧
      ((b.from_member_id = A ∧ b.to_member_id = B) ∨
        (b.from_member_id = B ∧ b.to_member_id = A)))).length ≤ 1 := by
  have hfl : ActivePairwise (l.filter fun b => decide (b.status = Status.active ∧
      ((b.from_member_id = A ∧ b.to_member_id = B) ∨
        (b.from_member_id = B ∧ b.to_member_id = A)))) := List.Pairwise.filter _ h
  rcases hfq : l.filter fun b => decide (b.status = Status.active ∧
      ((b.from_member_id = A ∧ b.to_member_id = B) ∨
        (b.from_member_id = B ∧ b.to_member_id = A))) with _ | ⟨x, _ | ⟨y, t2⟩⟩
  · rw [hfq]
    simp
  · rw [hfq]
    simp
  · exfalso
    rw [hfq] at hfl
    have hRxy := (List.pairwise_cons.mp hfl).1 y (List.mem_cons_self _ _)
    have hxmem : x ∈ l.filter fun b => decide (b.status = Status.active ∧
        ((b.from_member_id = A ∧ b.to_member_id = B) ∨
          (b.from_member_id = B ∧ b.to_member_id = A))) := by
      rw [hfq]
      exact List.mem_cons_self _ _
    have hymem : y ∈ l.filter fun b => decide (b.status = Status.active ∧
        ((b.from_member_id = A ∧ b.to_member_id = B) ∨
          (b.from_member_id = B ∧ b.to_member_id = A))) := by
      rw [hfq]
      exact List.mem_cons_of_mem _ (List.mem_cons_self _ _)
    have hx := List.of_mem_filter hxmem
    have hy := List.of_mem_filter hymem
    rw [decide_eq_true_eq] at hx hy
    apply hRxy hx.1 hy.1
    rcases hx.2 with ⟨hxa, hxb⟩ | ⟨hxa, hxb⟩ <;> rcases hy.2 with ⟨hya, hyb⟩ | ⟨hya, hyb⟩
    · exact Or.inl ⟨hxa.trans hya.symm, hxb.trans hyb.symm⟩
    · exact Or.inr ⟨hxa.trans hyb.symm, hxb.trans hya.symm⟩
    · exact Or.inr ⟨hxa.trans hyb.symm, hxb.trans hya.symm⟩
    · exact Or.inl ⟨hxa.trans hya.symm, hxb.trans hyb.symm⟩

/-- C2: after any run of the balance recomputation, for every unordered
pair of distinct members at most one balance with status active exists
between them; an active A-to-B and an active B-to-A balance never
coexist. -/
theorem C2_theorem (sb sb2 : SplitBill) (hrun : runNetting sb = some sb2)
    (A B : Nat) (hAB : A ≠ B) :
    (sb2.balances.filter fun b => decide (b.status = Status.active ∧
      ((b.from_member_id = A ∧ b.to_member_id = B) ∨
        (b.from_member_id = B ∧ b.to_member_id = A)))).length ≤ 1 := by
  cases hbuild : buildObligations sb with
  | none =>
    rw [show runNetting sb = (buildObligations sb).map (fun mb =>
        { sb with balances :=
          newBalanceList sb mb ((sb.balances.map Balance.id).foldr max 0 + 1) }) from rfl,
      hbuild] at hrun
    exact Option.noConfusion hrun
  | some mb =>
    rw [runNetting_balances sb mb hbuild] at hrun
    obtain rfl := Option.some.inj hrun
    exact activePairwise_filter_le_one
      (newBalanceList_activePairwise sb mb _ hbuild) A B

/-- C2 witness: a group with mutual debts between members 4 and 2 and
pre-existing active rows in both directions ends the run with exactly one
active balance over the pair (4, 2). -/
theorem C2_witness :
    (([⟨1, 7, 4, 2, 3, Status.active⟩, ⟨2, 7, 2, 4, 50, Status.settled⟩,
        ⟨3, 7, 9, 4, 3, Status.active⟩, ⟨4, 7, 2, 9, 1, Status.active⟩] :
          List Balance).filter fun b => decide (b.status = Status.active ∧
      ((b.from_member_id = 4 ∧ b.to_member_id = 2) ∨
        (b.from_member_id = 2 ∧ b.to_member_id = 4)))).length ≤ 1 := by
  have hrun : runNetting ⟨7, Status.active, [4, 2, 9],
      [⟨4, [⟨2, 5⟩, ⟨9, 3⟩]⟩, ⟨2, [⟨4, 8⟩, ⟨9, 1⟩]⟩], [⟨9, 2, 2⟩],
      [⟨1, 7, 4, 2, 99, Status.active⟩, ⟨2, 7, 2, 4, 50, Status.active⟩,
        ⟨3, 7, 9, 4, 1, Status.active⟩]⟩ =
      some ⟨7, Status.active, [4, 2, 9],
        [⟨4, [⟨2, 5⟩, ⟨9, 3⟩]⟩, ⟨2, [⟨4, 8⟩, ⟨9, 1⟩]⟩], [⟨9, 2, 2⟩],
        [⟨1, 7, 4, 2, 3, Status.active⟩, ⟨2, 7, 2, 4, 50, Status.settled⟩,
          ⟨3, 7, 9, 4, 3, Status.active⟩, ⟨4, 7, 2, 9, 1, Status.active⟩]⟩ := by
    norm_num [runNetting, buildObligations, initBalances, addExpense, addAssign, addTransfer,
      mbAdd, aadd, netObligations, nettingOuter, nettingInner, keysOf, reconcile,
      mkNewBalances, mkNewInner, aset, alookup, aerase, acontains, contains2, lookup2,
      set2, pop2, quantize2, roundHalfEven, List.foldlM]
  exact C2_theorem _ _ hrun 4 2 (by norm_num)
